import Mathlib

set_option linter.unusedVariables false

/-!
# codepack: ignore engine, traversal pipeline, content classifier

A shallow embedding of `internal/ignorer`, `internal/processor`,
`internal/config`, `internal/output` and `internal/language` of
kazuki-sk/codepack, and the properties of the specification that concern them.

Go strings are modelled as lists of characters (`Str`), byte slices as lists
of naturals below 256; `path.Match`, which indexes its arguments by byte and
decodes runes from them, runs on the UTF-8 bytes of the strings.  Functions of the Go standard library that the program
calls are either transcribed (`strings`, `path`, `path/filepath` helpers) or
taken as parameters (`http.DetectContentType`, `filepath.Abs`, `filepath.Rel`,
`flag.FlagSet.Parse`, `unicode.ToLower`, the decoding of the JSON tables).
-/

namespace Codepack

/-! ## Strings -/

/-- Go strings, as sequences of characters. -/
abbrev Str := List Char

/-- The function `strings.HasPrefix`. -/
def HasPrefix (s pre : Str) : Bool := pre.isPrefixOf s

/-- The function `strings.HasSuffix`. -/
def HasSuffix (s suf : Str) : Bool := suf.isSuffixOf s

/-- The function `strings.TrimPrefix`: `s` without the leading `pre`, once. -/
def TrimPrefix (s pre : Str) : Str :=
  if HasPrefix s pre then s.drop pre.length else s

/-- The function `strings.TrimSuffix`: `s` without the trailing `suf`, once. -/
def TrimSuffix (s suf : Str) : Str :=
  if HasSuffix s suf then s.take (s.length - suf.length) else s

/-- The function `strings.Contains`. -/
def Contains (s sub : Str) : Bool := s.tails.any (fun t => sub.isPrefixOf t)

/-- The predicate `unicode.IsSpace`. -/
def isSpace (c : Char) : Bool :=
  let n := c.toNat
  (9 ≤ n && n ≤ 13) || n == 32 || n == 0x85 || n == 0xA0 || n == 0x1680 ||
  (0x2000 ≤ n && n ≤ 0x200a) || n == 0x2028 || n == 0x2029 || n == 0x202f ||
  n == 0x205f || n == 0x3000

/-- The function `strings.TrimSpace`. -/
def TrimSpace (s : Str) : Str :=
  ((s.dropWhile isSpace).reverse.dropWhile isSpace).reverse

/-- The function `strings.Join`. -/
def StringsJoin (elems : List Str) (sep : Str) : Str := List.intercalate sep elems

/-- Byte slices. -/
abbrev Bytes := List Nat

/-- The UTF-8 encoding of one character. -/
def utf8EncodeChar (c : Char) : Bytes :=
  let n := c.toNat
  if n < 0x80 then [n]
  else if n < 0x800 then [0xC0 + n / 64, 0x80 + n % 64]
  else if n < 0x10000 then [0xE0 + n / 4096, 0x80 + n / 64 % 64, 0x80 + n % 64]
  else [0xF0 + n / 262144, 0x80 + n / 4096 % 64, 0x80 + n / 64 % 64, 0x80 + n % 64]

/-- The conversion of a Go string to its bytes. -/
def bytesOf (s : Str) : Bytes := s.flatMap utf8EncodeChar

/-! ## Paths (`path/filepath`, with `/` as the separator) -/

/-- The constant `filepath.Separator`. -/
def Separator : Char := '/'

/-- The function `filepath.ToSlash`. -/
def ToSlash (path : Str) : Str :=
  if Separator = '/' then path
  else path.map (fun c => if c = Separator then '/' else c)

/-- Removal of trailing separators, the first loop of `filepath.Base`. -/
def stripTrailingSlashes (path : Str) : Str :=
  (path.reverse.dropWhile (fun c => c == Separator)).reverse

/-- The part after the last separator, the second loop of `filepath.Base`. -/
def lastElement (path : Str) : Str :=
  (path.reverse.takeWhile (fun c => c != Separator)).reverse

/-- The function `filepath.Base`. -/
def Base (path : Str) : Str :=
  if path = [] then ['.']
  else
    let p := lastElement (stripTrailingSlashes path)
    if p = [] then [Separator] else p

/-! ## Shell globs (`path.Match`) -/

/-- The constant `utf8.RuneError`. -/
def RuneError : Nat := 0xFFFD

/-- The function `utf8.DecodeRuneInString`: the first rune of `s` and its
width in bytes; an invalid or truncated encoding gives `(RuneError, 1)`, the
empty string `(RuneError, 0)`. -/
def DecodeRuneInString (s : Bytes) : Nat × Nat :=
  match s with
  | [] => (RuneError, 0)
  | s0 :: t =>
    if s0 < 0x80 then (s0, 1)
    else if s0 < 0xC2 ∨ 0xF4 < s0 then (RuneError, 1)
    else
      let sz : Nat := if s0 < 0xE0 then 2 else if s0 < 0xF0 then 3 else 4
      let lo : Nat := if s0 = 0xE0 then 0xA0 else if s0 = 0xF0 then 0x90 else 0x80
      let hi : Nat := if s0 = 0xED then 0x9F else if s0 = 0xF4 then 0x8F else 0xBF
      if s.length < sz then (RuneError, 1)
      else
        match t with
        | [] => (RuneError, 1)
        | s1 :: t1 =>
          if s1 < lo ∨ hi < s1 then (RuneError, 1)
          else if sz ≤ 2 then (s0 % 32 * 64 + s1 % 64, 2)
          else
            match t1 with
            | [] => (RuneError, 1)
            | s2 :: t2 =>
              if s2 < 0x80 ∨ 0xBF < s2 then (RuneError, 1)
              else if sz ≤ 3 then (s0 % 16 * 4096 + s1 % 64 * 64 + s2 % 64, 3)
              else
                match t2 with
                | [] => (RuneError, 1)
                | s3 :: _ =>
                  if s3 < 0x80 ∨ 0xBF < s3 then (RuneError, 1)
                  else (s0 % 8 * 262144 + s1 % 64 * 4096 + s2 % 64 * 64 + s3 % 64, 4)

/-- The scan of `scanChunk` of package `path` after the leading stars: the
index of the next star outside a character class, or the length. -/
def scanChunkEnd : Bytes → Bool → Nat
  | [], _ => 0
  | c :: rest, inrange =>
    if c = 92 then
      match rest with
      | [] => 1
      | _ :: rest2 => 2 + scanChunkEnd rest2 inrange
    else if c = 91 then 1 + scanChunkEnd rest true
    else if c = 93 then 1 + scanChunkEnd rest false
    else if c = 42 then (if inrange then 1 + scanChunkEnd rest inrange else 0)
    else 1 + scanChunkEnd rest inrange

/-- The result `(star, chunk, rest)` of `scanChunk`. -/
def scanChunk (pattern : Bytes) : Bool × Bytes × Bytes :=
  let p := pattern.dropWhile (fun c => c == 42)
  let i := scanChunkEnd p false
  (decide (p.length < pattern.length), p.take i, p.drop i)

/-- The function `getEsc` of package `path`; `none` is `ErrBadPattern`. -/
def getEsc (chunk : Bytes) : Option (Nat × Bytes) :=
  match chunk with
  | [] => none
  | c :: rest =>
    if c = 45 ∨ c = 93 then none
    else
      let chunk1 := if c = 92 then rest else chunk
      if chunk1 = [] then none
      else
        let rn := DecodeRuneInString chunk1
        if rn.1 = RuneError ∧ rn.2 = 1 then none
        else
          let nchunk := chunk1.drop rn.2
          if nchunk = [] then none else some (rn.1, nchunk)

/-- The range loop of a character class in `matchChunk`: returns whether `r`
is in one of the ranges and the chunk after the closing bracket. -/
def classLoop : Nat → Nat → Bytes → Bool → Nat → Option (Bool × Bytes)
  | 0, _, _, _, _ => none
  | fuel + 1, r, chunk, matched, nrange =>
    if chunk.head? = some 93 ∧ nrange > 0 then some (matched, chunk.tail)
    else
      match getEsc chunk with
      | none => none
      | some (lo, chunk1) =>
        if chunk1.head? = some 45 then
          match getEsc chunk1.tail with
          | none => none
          | some (hi, chunk2) =>
            classLoop fuel r chunk2 (matched || (decide (lo ≤ r) && decide (r ≤ hi)))
              (nrange + 1)
        else
          classLoop fuel r chunk1 (matched || (decide (lo ≤ r) && decide (r ≤ lo)))
            (nrange + 1)

/-- The loop of `matchChunk` of package `path`: `none` is `ErrBadPattern`,
`some none` a failed match, `some (some rest)` a match leaving `rest`. -/
def matchChunkLoop : Nat → Bytes → Bytes → Bool → Option (Option Bytes)
  | 0, _, _, _ => none
  | fuel + 1, chunk, s, failed0 =>
    match chunk with
    | [] => if failed0 then some none else some (some s)
    | c :: crest =>
      let failed := failed0 || s.isEmpty
      if c = 91 then
        let r : Nat := if failed then 0 else (DecodeRuneInString s).1
        let s1 := if failed then s else s.drop (DecodeRuneInString s).2
        let negated := crest.head? = some 94
        let chunk1 := if negated then crest.tail else crest
        match classLoop (chunk1.length + 1) r chunk1 false 0 with
        | none => none
        | some (matched, chunk2) =>
          matchChunkLoop fuel chunk2 s1 (failed || (matched == decide negated))
      else if c = 63 then
        matchChunkLoop fuel crest (if failed then s else s.drop (DecodeRuneInString s).2)
          (failed || s.head? = some 47)
      else if c = 92 then
        match crest with
        | [] => none
        | e :: erest =>
          matchChunkLoop fuel erest (if failed then s else s.tail)
            (failed || s.head? ≠ some e)
      else
        matchChunkLoop fuel crest (if failed then s else s.tail)
          (failed || s.head? ≠ some c)

/-- The function `matchChunk` of package `path`. -/
def matchChunk (chunk s : Bytes) : Option (Option Bytes) :=
  matchChunkLoop (chunk.length + 1) chunk s false

/-- The inner loop of `path.Match` after a star: try the chunk after skipping
`i + 1` bytes of the name, never skipping a slash. -/
def starLoop (chunk : Bytes) (lastChunk : Bool) : Bytes → Option (Option Bytes)
  | [] => some none
  | c :: rest =>
    if c = 47 then some none
    else
      match matchChunk chunk rest with
      | none => none
      | some (some t) =>
        if lastChunk ∧ t ≠ [] then starLoop chunk lastChunk rest else some (some t)
      | some none => starLoop chunk lastChunk rest

/-- The outer loop of `path.Match`, on the bytes of the pattern and of the
name; a malformed pattern gives `false`, as the callers drop the error. -/
def pathMatchLoop : Nat → Bytes → Bytes → Bool
  | 0, _, _ => false
  | fuel + 1, pattern, name =>
    if pattern = [] then name = []
    else
      match scanChunk pattern with
      | (star, chunk, rest) =>
        if star ∧ chunk = [] then !(name.contains 47)
        else
          match matchChunk chunk name with
          | none => false
          | some (some t) =>
            if t = [] ∨ rest ≠ [] then pathMatchLoop fuel rest t
            else if star then
              match starLoop chunk (rest = []) name with
              | some (some t2) => pathMatchLoop fuel rest t2
              | _ => false
            else false
          | some none =>
            if star then
              match starLoop chunk (rest = []) name with
              | some (some t2) => pathMatchLoop fuel rest t2
              | _ => false
            else false

/-- The function `path.Match` with its error dropped (`ok, _ := path.Match`). -/
def pathMatch (pattern name : Str) : Bool :=
  pathMatchLoop ((bytesOf pattern).length + 1) (bytesOf pattern) (bytesOf name)

/-! ## The ignore engine (`internal/ignorer`) -/

/-- One rule of an ignore source (`ignoreRule`). -/
structure ignoreRule where
  pattern : Str
  negate : Bool
  dirOnly : Bool
deriving DecidableEq, Repr

/-- The rules of one ignore source, in line order (`GitIgnoreMatcher`). -/
structure GitIgnoreMatcher where
  rules : List ignoreRule
deriving DecidableEq, Repr

/-- The body of the scanning loop of `NewGitIgnoreMatcher`: `text` is what
`scanner.Text()` returns for one line, `rules` is `m.rules` so far. -/
def scanStep (rules : List ignoreRule) (text : Str) : List ignoreRule :=
  let line := TrimSpace text
  if line = [] ∨ HasPrefix line ['#'] = true then rules
  else
    let rule : ignoreRule := { pattern := line, negate := false, dirOnly := false }
    let rule :=
      if HasPrefix rule.pattern ['!'] = true then
        { rule with negate := true, pattern := TrimPrefix rule.pattern ['!'] }
      else rule
    let rule :=
      if HasSuffix rule.pattern ['/'] = true then
        { rule with dirOnly := true, pattern := TrimSuffix rule.pattern ['/'] }
      else rule
    rules ++ [rule]

/-- The constant `bufio.MaxScanTokenSize`, the size the buffer of a
`bufio.Scanner` can grow to. -/
def MaxScanTokenSize : Nat := 64 * 1024

/-- The function `dropCR` of package `bufio`: one trailing carriage return is
dropped. -/
def dropCR (data : Str) : Str :=
  if data.getLast? = some '\r' then data.dropLast else data

/-- The lines that `bufio.ScanLines` cuts a text into, before `dropCR`: the
text between the line feeds, and the text after the last line feed when it is
not empty. -/
def rawLines (src : Str) : List Str :=
  let pieces := src.splitOn '\n'
  if pieces.getLast? = some [] then pieces.dropLast else pieces

/-- The values of `scanner.Text()` over the calls of `scanner.Scan()` that
return true, for a scanner made by `bufio.NewScanner` on a reader that delivers
the text `src`: the lines in order, up to the first line whose bytes do not fit
the buffer together with its line feed; there `Scan` returns false with
`bufio.ErrTooLong`, which the loop does not look at. -/
def scanTokens (src : Str) : List Str :=
  ((rawLines src).takeWhile
    (fun line => decide ((bytesOf line).length < MaxScanTokenSize))).map dropCR

/-- The function `NewGitIgnoreMatcher`; `r` is the text the reader delivers
before `io.EOF` or an error. -/
def NewGitIgnoreMatcher (r : Str) : GitIgnoreMatcher :=
  { rules := (scanTokens r).foldl scanStep [] }

/-- The value of `matched` that the loop body of `GitIgnoreMatcher.Match`
computes for one rule; `glob` is `path.Match` with the error dropped. -/
def ruleMatched (glob : Str → Str → Bool) (rule : ignoreRule)
    (targetPath fileName : Str) : Bool :=
  if Contains rule.pattern ['/'] = false then
    glob rule.pattern fileName
  else
    let cleanPattern := TrimPrefix rule.pattern ['/']
    if targetPath = cleanPattern ∨ HasSuffix targetPath ('/' :: cleanPattern) = true then true
    else glob cleanPattern targetPath

/-- The loop of `GitIgnoreMatcher.Match` over the rules, `ignored` being the
running result. -/
def matchLoop (glob : Str → Str → Bool) (targetPath fileName : Str) (isDir : Bool) :
    List ignoreRule → Bool → Bool
  | [], ignored => ignored
  | rule :: rest, ignored =>
    if rule.dirOnly = true ∧ isDir = false then
      matchLoop glob targetPath fileName isDir rest ignored
    else if ruleMatched glob rule targetPath fileName = true then
      matchLoop glob targetPath fileName isDir rest (if rule.negate = true then false else true)
    else
      matchLoop glob targetPath fileName isDir rest ignored

/-- The method `GitIgnoreMatcher.Match`. -/
def GitIgnoreMatcher.Match (glob : Str → Str → Bool) (m : GitIgnoreMatcher)
    (targetPath : Str) (isDir : Bool) : Bool :=
  let targetPath := ToSlash targetPath
  let fileName := Base targetPath
  matchLoop glob targetPath fileName isDir m.rules false

/-- The method `Ignorer.ShouldIgnore` over `i.matchers`: the first Matcher that
matches decides. -/
def ShouldIgnore (glob : Str → Str → Bool) (matchers : List GitIgnoreMatcher)
    (path : Str) (isDir : Bool) : Bool :=
  match matchers with
  | [] => false
  | m :: rest =>
    if m.Match glob path isDir = true then true
    else ShouldIgnore glob rest path isDir

/-! ### The specification of the ignore engine -/

/-- Whether a rule takes part in the decision of `GitIgnoreMatcher.Match` for
a target: it is not skipped as directory-only and `matched` is true. -/
def ruleApplies (glob : Str → Str → Bool) (targetPath : Str) (isDir : Bool)
    (rule : ignoreRule) : Bool :=
  !(rule.dirOnly && !isDir) &&
    ruleMatched glob rule (ToSlash targetPath) (Base (ToSlash targetPath))

/-- The last rule, in source order, that applies to the target. -/
def lastApplying (glob : Str → Str → Bool) (rules : List ignoreRule)
    (targetPath : Str) (isDir : Bool) : Option ignoreRule :=
  (rules.filter (ruleApplies glob targetPath isDir)).getLast?

/-- The rule that the specification derives from one trimmed line. -/
def specRule (line : Str) : ignoreRule :=
  let negate : Bool := line.head? = some '!'
  let body := if negate = true then line.tail else line
  let dirOnly : Bool := body.getLast? = some '/'
  { pattern := if dirOnly = true then body.dropLast else body,
    negate := negate,
    dirOnly := dirOnly }

/-- Whether a trimmed line yields a rule: it is not blank and not a comment. -/
def specKept (line : Str) : Bool :=
  decide (line ≠ []) && decide (line.head? ≠ some '#')

/-- The rules the specification derives from the lines of an ignore source. -/
def specRules (lines : List Str) : List ignoreRule :=
  ((lines.map TrimSpace).filter specKept).map specRule

/-- The per-rule match predicate as the specification words it, for a pattern
`p` and a slash-normalised target `t`. -/
def specRuleMatch (glob : Str → Str → Bool) (p t : Str) : Bool :=
  if '/' ∈ p then
    let q := if p.head? = some '/' then p.tail else p
    decide (t = q) || decide (('/' :: q) <:+ t) || glob q t
  else
    glob p (Base t)


/-! ## Joining paths (`filepath.Clean`, `filepath.Join`) -/

/-- One step of `filepath.Clean` over the elements of a path, the elements
kept so far being held last first. -/
def cleanStep (rooted : Bool) (kept : List Str) (elem : Str) : List Str :=
  if elem = [] ∨ elem = ['.'] then kept
  else if elem = ['.', '.'] then
    match kept with
    | [] => if rooted then [] else [elem]
    | top :: below => if top = ['.', '.'] then elem :: kept else below
  else elem :: kept

/-- The function `filepath.Clean`. -/
def Clean (path : Str) : Str :=
  if path = [] then ['.']
  else
    let rooted : Bool := path.head? = some '/'
    let body := List.intercalate ['/'] ((path.splitOn '/').foldl (cleanStep rooted) []).reverse
    if rooted then '/' :: body
    else if body = [] then ['.'] else body

/-- The function `filepath.Join` for a directory and the name of an entry. -/
def Join (dir name : Str) : Str :=
  if dir = [] then (if name = [] then [] else Clean name)
  else if name = [] then Clean dir
  else Clean (dir ++ '/' :: name)

/-! ## The traversal pipeline (`internal/processor`) -/

/-- Error values: `ctx.Err()`, `io.ErrShortWrite`, and any other error. -/
inductive Err where
  | canceled
  | shortWrite
  | other (code : Nat)
deriving DecidableEq, Repr

/-- The constant `DefaultThreshold`. -/
def DefaultThreshold : Nat := 500 * 1024

/-- The length of the buffer of `copyCancellable`. -/
def copyBufSize : Nat := 32 * 1024

/-- The collaborators and settings of a `Processor`.

* `glob` is `path.Match` with the error dropped, `matchers` the Matchers of the
  `Ignorer`;
* `Abs` and `Rel` are `filepath.Abs` and `filepath.Rel` (`none` is an error);
* `GetLanguage` is `Mapper.GetLanguage`;
* `handler` is `LargeFileHandler.ShouldInclude`, given the consultations made
  before;
* `sink` is `output.Write`: given the chunks offered before and the chunk
  offered now, the number of bytes accepted and the error;
* `cancelAt` is the number of polls of the context that see it live: from
  poll `cancelAt` on, `ctx.Err()` is non-nil;
* `detect` is `http.DetectContentType`. -/
structure Env where
  glob : Str → Str → Bool
  matchers : List GitIgnoreMatcher
  targetDir : Str
  absOutputPath : Str
  Abs : Str → Option Str
  Rel : Str → Str → Option Str
  GetLanguage : Str → Str
  handler : List (Str × Nat) → Str → Nat → Except Err Bool
  sink : List Bytes → Bytes → Nat × Option Err
  cancelAt : Option Nat
  detect : Bytes → Str

/-- What a run has done so far: the polls of the context, the chunks passed
to `output.Write`, the consultations of the Large-File Policy. -/
structure World where
  polls : Nat
  writes : List Bytes
  asked : List (Str × Nat)
deriving DecidableEq, Repr

/-- The call `ctx.Err()`: whether it is non-nil, and the world after it. -/
def ctxErr (env : Env) (w : World) : Bool × World :=
  (match env.cancelAt with
    | some k => decide (k ≤ w.polls)
    | none => false,
   { w with polls := w.polls + 1 })

/-- The call `p.output.Write(chunk)`. -/
def outputWrite (env : Env) (chunk : Bytes) (w : World) : (Nat × Option Err) × World :=
  (env.sink w.writes chunk, { w with writes := w.writes ++ [chunk] })

/-- The error of a `Read`: `io.EOF` or another error. -/
inductive ReadErr where
  | eof
  | fail (e : Err)
deriving DecidableEq, Repr

/-- A reader over bytes held in memory or on disk: the bytes still to be
read and the error met after them, `none` for `io.EOF`. -/
structure SrcReader where
  data : Bytes
  fail : Option Err
deriving DecidableEq, Repr

/-- The method `Read` of `bytes.Reader` and of `os.File`, for a buffer of `n`
bytes: the bytes read, the error, and the reader afterwards. -/
def SrcReader.Read (r : SrcReader) (n : Nat) : Bytes × Option ReadErr × SrcReader :=
  if r.data = [] then
    ([], some (match r.fail with
      | none => ReadErr.eof
      | some e => ReadErr.fail e), r)
  else (r.data.take n, none, { r with data := r.data.drop n })

/-- The method `Read` of the reader `io.MultiReader` makes. -/
def multiRead : List SrcReader → Nat → Bytes × Option ReadErr × List SrcReader
  | [], _ => ([], some ReadErr.eof, [])
  | r :: rest, n =>
    match r.Read n with
    | (buf, err, r1) =>
      if err = some ReadErr.eof then
        if buf ≠ [] then (buf, if rest ≠ [] then none else err, rest)
        else multiRead rest n
      else (buf, err, r1 :: rest)

/-- The bytes and readers still to be consumed, the measure of the copy loop. -/
def srcSize (src : List SrcReader) : Nat :=
  (src.map (fun r => r.data.length + 1)).sum

/-- The write of one chunk in the loop of `copyCancellable`: nothing is
written for an empty read, a short write is `io.ErrShortWrite`. -/
def copyWrite (env : Env) (buf : Bytes) (w : World) : Option Err × World :=
  if 0 < buf.length then
    match outputWrite env buf w with
    | ((nw, ew), w1) =>
      match ew with
      | some e => (some e, w1)
      | none => if buf.length ≠ nw then (some Err.shortWrite, w1) else (none, w1)
  else (none, w)

/-- The method `Processor.copyCancellable`: the error returned (`none` is
nil) and the world afterwards. -/
def copyCancellable (env : Env) (src : List SrcReader) (w : World) : Option Err × World :=
  match ctxErr env w with
  | (true, w1) => (some Err.canceled, w1)
  | (false, w1) =>
    match h : multiRead src copyBufSize with
    | (buf, er, src1) =>
      match copyWrite env buf w1 with
      | (some e, w2) => (some e, w2)
      | (none, w2) =>
        match h2 : er with
        | some ReadErr.eof => (none, w2)
        | some (ReadErr.fail e) => (some e, w2)
        | none => copyCancellable env src1 w2
termination_by srcSize src
decreasing_by
  have key : ∀ (s : List SrcReader), (multiRead s copyBufSize).2.1 = none →
      srcSize (multiRead s copyBufSize).2.2 < srcSize s := by
    intro s
    induction s with
    | nil => intro h0; simp [multiRead] at h0
    | cons r rest ih =>
      intro h0
      unfold multiRead SrcReader.Read at h0 ⊢
      by_cases hd : r.data = []
      · simp only [hd, if_true] at h0 ⊢
        cases hf : r.fail with
        | none =>
          simp only [hf, if_true, ne_eq, not_true_eq_false, if_false] at h0 ⊢
          have := ih h0
          simp only [srcSize, List.map_cons, List.sum_cons] at this ⊢
          omega
        | some e => simp [hf] at h0
      · simp only [hd, if_false] at h0 ⊢
        simp only [reduceCtorEq, if_false, srcSize, List.map_cons, List.sum_cons,
          List.length_drop]
        have : 0 < r.data.length := List.length_pos.2 hd
        have : 0 < copyBufSize := by decide
        omega
  have h3 := key src
  rw [h] at h3
  subst h2
  exact h3 rfl

/-- The function `isBinary`; `detect` is `http.DetectContentType`. -/
def isBinary (detect : Bytes → Str) (data : Bytes) : Bool :=
  if data.length = 0 then false
  else if 0 ∈ data then true
  else
    let contentType := detect data
    !HasPrefix contentType "text/".toList &&
      decide (contentType ≠ "application/json".toList) &&
      decide (contentType ≠ "application/xml".toList)

/-- The header that `writeMarkdownEntry` formats for a path. -/
def entryHeader (normalizedPath lang : Str) (isBinarySkipped : Bool) : Str :=
  if isBinarySkipped then
    "\n## File: ".toList ++ normalizedPath ++ "\n\n(Binary file skipped)\n".toList
  else
    "\n## File: ".toList ++ normalizedPath ++ "\n\n```".toList ++ lang ++ "\n".toList

/-- The path that `writeMarkdownEntry` prints: relative to the target
directory when `filepath.Rel` succeeds, with forward slashes. -/
def normalizedPath (env : Env) (path : Str) : Str :=
  ToSlash (match env.Rel env.targetDir path with
    | some relPath => relPath
    | none => path)

/-- The method `Processor.writeMarkdownEntry`; `r` is the reader, `none` for
nil. -/
def writeMarkdownEntry (env : Env) (path lang : Str) (r : Option (List SrcReader))
    (isBinarySkipped : Bool) (w : World) : Option Err × World :=
  let header := entryHeader (normalizedPath env path) lang isBinarySkipped
  match outputWrite env (bytesOf header) w with
  | ((_, some e), w1) => (some e, w1)
  | ((_, none), w1) =>
    match isBinarySkipped, r with
    | false, some src =>
      match copyCancellable env src w1 with
      | (some e, w2) => (some e, w2)
      | (none, w2) =>
        match outputWrite env (bytesOf "\n```\n".toList) w2 with
        | ((_, some e), w3) => (some e, w3)
        | ((_, none), w3) => (none, w3)
    | _, _ => (none, w1)

/-- A non-directory entry of the file system: its bytes, what `d.Info()` and
`os.Open` give for it, and the offset and error at which reading it fails. -/
structure FileData where
  content : Bytes
  size : Nat
  symlink : Bool
  infoErr : Bool
  openErr : Bool
  readErr : Option (Nat × Err)
deriving DecidableEq, Repr

/-- The bytes of a file that can be read before its read error, if any. -/
def FileData.readable (f : FileData) : Bytes :=
  match f.readErr with
  | none => f.content
  | some (k, _) => f.content.take k

/-- The call `io.ReadAll(io.LimitReader(file, 512))` on a file just opened:
`none` is an error. -/
def readHead (f : FileData) : Option Bytes :=
  if 512 ≤ f.readable.length then some (f.readable.take 512)
  else if f.readErr.isSome then none
  else some f.readable

/-- The file as a reader once `headBuf` has been read from it. -/
def fileRest (f : FileData) (headBuf : Bytes) : SrcReader :=
  { data := f.readable.drop headBuf.length, fail := f.readErr.map (fun p => p.2) }

/-- The method `Processor.processFile`. -/
def processFile (env : Env) (path : Str) (f : FileData) (w : World) : Option Err × World :=
  if f.openErr then (none, w)
  else
    match ctxErr env w with
    | (true, w1) => (some Err.canceled, w1)
    | (false, w1) =>
      match readHead f with
      | none => (none, w1)
      | some headBuf =>
        if isBinary env.detect headBuf then
          writeMarkdownEntry env path [] none true w1
        else
          let emit (w2 : World) : Option Err × World :=
            let reader := [{ data := headBuf, fail := none }, fileRest f headBuf]
            let lang := env.GetLanguage path
            writeMarkdownEntry env path lang (some reader) false w2
          if f.size > DefaultThreshold then
            let w2 := { w1 with asked := w1.asked ++ [(path, f.size)] }
            match env.handler w1.asked path f.size with
            | Except.error e => (some e, w2)
            | Except.ok false => (none, w2)
            | Except.ok true => emit w2
          else emit w1

/-- A directory tree: a non-directory entry, or a directory with a flag that
`os.ReadDir` fails on it and the entries `os.ReadDir` returns, in its order. -/
inductive Node where
  | file (name : Str) (f : FileData)
  | dir (name : Str) (readDirErr : Bool) (entries : List Node)

/-- The name of an entry (`d.Name()`). -/
def Node.name : Node → Str
  | Node.file name _ => name
  | Node.dir name _ _ => name

/-- What a `fs.WalkDirFunc` returns: nil, `filepath.SkipDir` or an error. -/
inductive Step where
  | ok
  | skipDir
  | fail (e : Err)
deriving DecidableEq, Repr

/-- The function that `Processor.Execute` passes to `filepath.WalkDir`, called
for `path` and its entry `d`; `walkErr` is whether `err` is non-nil. -/
def walkFn (env : Env) (path : Str) (d : Node) (walkErr : Bool) (w : World) : Step × World :=
  match ctxErr env w with
  | (true, w1) => (Step.fail Err.canceled, w1)
  | (false, w1) =>
    if walkErr then (Step.ok, w1)
    else
      match d with
      | Node.dir _ _ _ =>
        if ShouldIgnore env.glob env.matchers path true then (Step.skipDir, w1)
        else (Step.ok, w1)
      | Node.file _ f =>
        if f.infoErr then (Step.ok, w1)
        else if f.symlink then (Step.ok, w1)
        else if env.Abs path = some env.absOutputPath then (Step.ok, w1)
        else if ShouldIgnore env.glob env.matchers path false then (Step.ok, w1)
        else
          match processFile env path f w1 with
          | (none, w2) => (Step.ok, w2)
          | (some e, w2) => (Step.fail e, w2)

mutual
/-- The function `walkDir` of `path/filepath`, with the function of `Execute`. -/
def walkDir (env : Env) (path : Str) : Node → World → Step × World
  | Node.file name f, w => walkFn env path (Node.file name f) false w
  | Node.dir name readDirErr entries, w =>
    match walkFn env path (Node.dir name readDirErr entries) false w with
    | (Step.ok, w1) =>
      if readDirErr then
        match walkFn env path (Node.dir name readDirErr entries) true w1 with
        | (Step.ok, w2) => walkEntries env path entries w2
        | (Step.skipDir, w2) => (Step.ok, w2)
        | (Step.fail e, w2) => (Step.fail e, w2)
      else walkEntries env path entries w1
    | (Step.skipDir, w1) => (Step.ok, w1)
    | (Step.fail e, w1) => (Step.fail e, w1)
/-- The loop of `walkDir` over the entries of the directory `path`. -/
def walkEntries (env : Env) (path : Str) : List Node → World → Step × World
  | [], w => (Step.ok, w)
  | d1 :: rest, w =>
    match walkDir env (Join path d1.name) d1 w with
    | (Step.ok, w1) => walkEntries env path rest w1
    | (Step.skipDir, w1) => (Step.ok, w1)
    | (Step.fail e, w1) => (Step.fail e, w1)
end

/-- The method `Processor.Execute` on the tree found at the target directory,
`none` when `os.Lstat` fails on it (the function is then called once, with that
error and no entry): the error returned and the world after. -/
def Execute (env : Env) (root : Option Node) (w : World) : Option Err × World :=
  let r :=
    match root with
    | none => walkFn env env.targetDir (Node.dir [] false []) true w
    | some d => walkDir env env.targetDir d w
  match r with
  | (Step.fail e, w1) => (some e, w1)
  | (_, w1) => (none, w1)

mutual
/-- The tree without the entries beneath the directories that the Ignore
Engine reports as ignored, `path` being the path of the node in the walk. -/
def prune (env : Env) (path : Str) : Node → Node
  | Node.file name f => Node.file name f
  | Node.dir name readDirErr entries =>
    if ShouldIgnore env.glob env.matchers path true then Node.dir name readDirErr []
    else Node.dir name readDirErr (pruneEntries env path entries)
/-- The entries of the directory `path`, each pruned. -/
def pruneEntries (env : Env) (path : Str) : List Node → List Node
  | [] => []
  | d1 :: rest => prune env (Join path d1.name) d1 :: pruneEntries env path rest
end

/-! ## Configuration (`internal/config`) -/

/-- The structure `Config`. -/
structure Config where
  TargetDir : Str
  OutputFile : Str
  CopyToClipboard : Bool
  IgnorePatterns : List Str
  IgnoreFiles : List Str
  LanguageMap : Str
  ForceLarge : Bool
  SkipLarge : Bool
  ShowVersion : Bool
deriving DecidableEq, Repr

/-- The function `DefaultConfig`. -/
def DefaultConfig : Config :=
  { TargetDir := ".".toList,
    OutputFile := "codebase.md".toList,
    CopyToClipboard := false,
    IgnorePatterns := [],
    IgnoreFiles := [],
    LanguageMap := [],
    ForceLarge := false,
    SkipLarge := false,
    ShowVersion := false }

/-- Errors of `Load`: the error of `fs.Parse`, or the error for the two
large-file flags given together. -/
inductive LoadErr where
  | parse (msg : Str)
  | bothLarge
deriving DecidableEq, Repr

/-- What `fs.Parse` leaves in the variables bound to the flags. -/
structure Flags where
  d : Str
  o : Str
  c : Bool
  patterns : List Str
  ignores : List Str
  m : Str
  forceLarge : Bool
  skipLarge : Bool
  version : Bool
deriving DecidableEq, Repr

/-- The values the flags are declared with in `Load`. -/
def flagDefaults (cfg : Config) : Flags :=
  { d := cfg.TargetDir,
    o := cfg.OutputFile,
    c := false,
    patterns := [],
    ignores := [],
    m := [],
    forceLarge := false,
    skipLarge := false,
    version := false }

/-- The function `Load`; `parse` is `flag.FlagSet.Parse` for the flags that
`Load` declares, from their default values to their values after the
arguments, or the error. -/
def Load (parse : Flags → List Str → Except Str Flags) (args : List Str) :
    Except LoadErr Config :=
  let cfg := DefaultConfig
  match parse (flagDefaults cfg) args with
  | Except.error msg => Except.error (LoadErr.parse msg)
  | Except.ok fl =>
    let cfg : Config :=
      { TargetDir := fl.d,
        OutputFile := fl.o,
        CopyToClipboard := fl.c,
        IgnorePatterns := fl.patterns,
        IgnoreFiles := fl.ignores,
        LanguageMap := fl.m,
        ForceLarge := fl.forceLarge,
        SkipLarge := fl.skipLarge,
        ShowVersion := fl.version }
    if cfg.ForceLarge = true ∧ cfg.SkipLarge = true then Except.error LoadErr.bothLarge
    else Except.ok cfg

/-- The bytes a list of readers still holds, in reading order. -/
def srcData (src : List SrcReader) : Bytes := (src.map (fun r => r.data)).flatten

/-! ## Output destinations (`internal/output`) -/

/-- A destination (`Strategy`): the writes it has received, each with the time
of the call, and its answer to `Write(p)` given them: the number of bytes
accepted and the error. -/
structure Strategy where
  received : List (Nat × Bytes)
  answer : List (Nat × Bytes) → Bytes → Nat × Option Err

/-- The call `s.Write(p)` made at time `clock`, a count of the calls made to
destinations: the answer, and the destination afterwards. -/
def Strategy.Write (s : Strategy) (clock : Nat) (p : Bytes) : (Nat × Option Err) × Strategy :=
  (s.answer s.received p, { s with received := s.received ++ [(clock, p)] })

/-- The method `MultiStrategy.Write` over `m.strategies`: what it returns, the
destinations afterwards and the time afterwards. -/
def MultiStrategy.Write (strategies : List Strategy) (clock : Nat) (p : Bytes) :
    (Nat × Option Err) × List Strategy × Nat :=
  match strategies with
  | [] => ((p.length, none), [], clock)
  | s :: rest =>
    match s.Write clock p with
    | ((n, some e), s1) => ((n, some e), s1 :: rest, clock + 1)
    | ((n, none), s1) =>
      if n ≠ p.length then ((n, some Err.shortWrite), s1 :: rest, clock + 1)
      else
        match MultiStrategy.Write rest (clock + 1) p with
        | (r, rest1, c1) => (r, s1 :: rest1, c1)

/-! ### The specification of the fan-out -/

/-- Whether a destination accepts the whole of `p` without error. -/
def Strategy.accepts (s : Strategy) (p : Bytes) : Bool :=
  decide (s.answer s.received p = (p.length, none))

/-- The error `Write` reports for the answer of a destination that does not
accept `p`: its own error, or `io.ErrShortWrite` for a short write. -/
def failureOf (a : Nat × Option Err) : Err :=
  match a.2 with
  | some e => e
  | none => Err.shortWrite

/-- The destinations after each has been offered `p`, one after the other in
list order, the first at time `clock`. -/
def offered (clock : Nat) (p : Bytes) : List Strategy → List Strategy
  | [] => []
  | s :: rest => { s with received := s.received ++ [(clock, p)] } :: offered (clock + 1) p rest

/-! ## The language mapper (`internal/language`) -/

/-- A Go map from extensions to lists of language names
(`map[string][]string`), as its entries in the order `range` visits them. -/
abbrev LangTable := List (Str × List Str)

/-- The index expression `langs, ok := m[k]`. -/
def LangTable.get (m : LangTable) (k : Str) : Option (List Str) := m.lookup k

/-- The assignment `m[k] = v`. -/
def LangTable.set (m : LangTable) (k : Str) (v : List Str) : LangTable :=
  (k, v) :: m.filter (fun e => decide (e.1 ≠ k))

/-- The structure `Mapper`. -/
structure Mapper where
  extMap : LangTable
deriving DecidableEq, Repr

/-- The function `NewMapper`: `defaults` is the embedded table as read and
decoded, `custom` the table read and decoded from the file at `customMapPath`,
`none` being an error of the reading or of the decoding. -/
def NewMapper (defaults : Option LangTable) (customMapPath : Str) (custom : Option LangTable) :
    Option Mapper :=
  match defaults with
  | none => none
  | some table =>
    let m : Mapper := { extMap := table }
    if customMapPath ≠ [] then
      match custom with
      | none => none
      | some customMap =>
        some { extMap := customMap.foldl (fun extMap kv => extMap.set kv.1 kv.2) m.extMap }
    else some m

/-- The function `filepath.Ext`: the suffix of the final element of the path
that starts at its last dot, empty when it has no dot. -/
def Ext (path : Str) : Str :=
  let elem := lastElement path
  if '.' ∈ elem then '.' :: (elem.reverse.takeWhile (fun c => c != '.')).reverse
  else []

/-- The function `strings.ToLower`; `lower` is `unicode.ToLower`. -/
def ToLower (lower : Char → Char) (s : Str) : Str := s.map lower

/-- The method `Mapper.GetLanguage`; `lower` is `unicode.ToLower`. -/
def Mapper.GetLanguage (lower : Char → Char) (m : Mapper) (path : Str) : Str :=
  let ext := ToLower lower (Ext path)
  match m.extMap.get ext with
  | some langs => if langs.length > 0 then langs.headD [] else []
  | none => []

/-! ### The specification of the language mapper -/

/-- The first name of a list of names, empty for the empty list. -/
def firstName (langs : List Str) : Str :=
  match langs with
  | [] => []
  | name :: _ => name

/-- The language the specification gives for the lower-cased extension `e`:
the first name of the custom entry when the custom table has the key, otherwise
that of the default entry, otherwise empty. -/
def specLanguage (defaults custom : LangTable) (e : Str) : Str :=
  match custom.lookup e with
  | some langs => firstName langs
  | none =>
    match defaults.lookup e with
    | some langs => firstName langs
    | none => []

/-! ### The paths of a walk -/

mutual
/-- The entries that a walk of the tree `d` found at `path` can visit, each as
the path `filepath.WalkDir` reports for it and whether it is a directory. -/
def walkPaths (path : Str) : Node → List (Str × Bool)
  | Node.file _ _ => [(path, false)]
  | Node.dir _ _ entries => (path, true) :: walkPathsEntries path entries
/-- The entries that a walk can visit beneath the directory `path`. -/
def walkPathsEntries (path : Str) : List Node → List (Str × Bool)
  | [] => []
  | d1 :: rest => walkPaths (Join path d1.name) d1 ++ walkPathsEntries path rest
end

/-! ## Inputs for the examples -/

/-- An environment whose Ignore Engine holds one Matcher, read as `main.go`
reads the patterns of the `-p` flags: from `lines` joined by line feeds; with a
sink that accepts every write, no cancellation, a policy that declines, and a
sniffer that answers plain text. -/
def exampleEnv (lines : List Str) : Env where
  glob := pathMatch
  matchers := [NewGitIgnoreMatcher (StringsJoin lines ['\n'])]
  targetDir := ".".toList
  absOutputPath := "/work/codebase.md".toList
  Abs := fun p => some ("/work/".toList ++ p)
  Rel := fun _ p => some p
  GetLanguage := fun _ => []
  handler := fun _ _ _ => Except.ok false
  sink := fun _ p => (p.length, none)
  cancelAt := none
  detect := fun _ => "text/plain; charset=utf-8".toList

/-- A regular file with the given bytes, that opens and reads without error. -/
def exampleFile (content : Bytes) : FileData :=
  { content := content,
    size := content.length,
    symlink := false,
    infoErr := false,
    openErr := false,
    readErr := none }

/-- A regular file that reads as the given bytes and for which `info.Size()`
reports 512001, one byte over the threshold. -/
def exampleLargeFile (content : Bytes) : FileData :=
  { content := content,
    size := 512001,
    symlink := false,
    infoErr := false,
    openErr := false,
    readErr := none }

/-- A regular text file of 512001 bytes, each the letter `a`: one byte over
the threshold. -/
def exampleBigTextFile : FileData :=
  { content := List.replicate 512001 97,
    size := 512001,
    symlink := false,
    infoErr := false,
    openErr := false,
    readErr := none }

/-- The world before a run. -/
def World.init : World := { polls := 0, writes := [], asked := [] }

/-- A parser of flags that knows `--force-large` and `--skip-large` only. -/
def exampleParse (fl : Flags) (args : List Str) : Except Str Flags :=
  Except.ok { fl with
    forceLarge := args.contains "--force-large".toList,
    skipLarge := args.contains "--skip-large".toList }

/-- A destination that has received nothing and accepts every write. -/
def acceptingStrategy : Strategy :=
  { received := [], answer := fun _ p => (p.length, none) }

/-- A destination that has received nothing and accepts `n` bytes of every
write, without error. -/
def shortStrategy (n : Nat) : Strategy :=
  { received := [], answer := fun _ _ => (n, none) }

/-- A destination that has received nothing and fails every write with the
error `e`. -/
def failingStrategy (e : Err) : Strategy :=
  { received := [], answer := fun _ _ => (0, some e) }

/-- A default table for the examples. -/
def exampleDefaults : LangTable :=
  [(".go".toList, ["Go".toList]), (".h".toList, ["C".toList, "C++".toList]),
   (".md".toList, ["Markdown".toList])]

/-- A custom table for the examples: it replaces the entry of `.h` and empties
that of `.md`. -/
def exampleCustom : LangTable :=
  [(".h".toList, ["Objective-C".toList]), (".md".toList, [])]

/-- The environment of the examples with the scan root `root`, a relative
directory; `filepath.Rel` takes the root off the front of a path beneath it. -/
def exampleEnvAt (root : Str) (lines : List Str) : Env :=
  { exampleEnv lines with
    targetDir := root,
    Rel := fun base p => if base = ".".toList then some p else some (TrimPrefix p (base ++ ['/'])) }

/-- A scan root that holds the directory `src` with the file `a.go` in it. -/
def exampleTree : Node :=
  Node.dir [] false
    [Node.dir "src".toList false
      [Node.file "a.go".toList (exampleFile (bytesOf "package a".toList))]]

/-! # Theorems -/

/-! ## The ignore engine -/

/-- The glob matcher retries a chunk after a star at every byte offset of the
name, and `?` consumes one byte of an incomplete encoding: the pattern `*??`
matches a name of one three-byte character, and `??` alone does not. -/
theorem pathMatch_star_retries_bytes :
    pathMatch "*??".toList "あ".toList = true ∧
    pathMatch "??".toList "あ".toList = false ∧
    pathMatch "?".toList "あ".toList = true ∧
    pathMatch "[あ-ん]x".toList "いx".toList = true := by
  decide

theorem HasPrefix_singleton (s : Str) (c : Char) :
    HasPrefix s [c] = true ↔ s.head? = some c := by
  cases s with
  | nil => simp [HasPrefix, List.isPrefixOf]
  | cons a t =>
    simp only [HasPrefix, List.isPrefixOf, List.head?_cons, Option.some.injEq,
      Bool.and_true, beq_iff_eq]
    exact eq_comm

theorem TrimPrefix_singleton (s : Str) (c : Char) :
    TrimPrefix s [c] = if s.head? = some c then s.tail else s := by
  unfold TrimPrefix
  by_cases h : s.head? = some c
  · rw [if_pos ((HasPrefix_singleton s c).2 h), if_pos h]
    cases s <;> simp
  · rw [if_neg (fun h2 => h ((HasPrefix_singleton s c).1 h2)), if_neg h]

theorem HasSuffix_singleton (s : Str) (c : Char) :
    HasSuffix s [c] = true ↔ s.getLast? = some c := by
  unfold HasSuffix
  rw [List.isSuffixOf_iff_suffix]
  constructor
  · rintro ⟨t, rfl⟩
    simp
  · intro h
    obtain ⟨t, rfl⟩ : ∃ t, s = t ++ [c] := by
      rcases List.eq_nil_or_concat s with rfl | ⟨t, b, rfl⟩
      · simp at h
      · simp at h
        exact ⟨t, by simp [h]⟩
    exact ⟨t, rfl⟩

theorem TrimSuffix_singleton (s : Str) (c : Char) :
    TrimSuffix s [c] = if s.getLast? = some c then s.dropLast else s := by
  unfold TrimSuffix
  by_cases h : s.getLast? = some c
  · rw [if_pos ((HasSuffix_singleton s c).2 h), if_pos h]
    simp [List.dropLast_eq_take]
  · rw [if_neg (fun h2 => h ((HasSuffix_singleton s c).1 h2)), if_neg h]

theorem Contains_singleton (s : Str) (c : Char) :
    Contains s [c] = true ↔ c ∈ s := by
  unfold Contains
  induction s with
  | nil => simp [List.isPrefixOf]
  | cons a t ih =>
    simp only [List.tails, List.any_cons, Bool.or_eq_true, ih, List.mem_cons]
    simp only [List.isPrefixOf, Bool.and_true, beq_iff_eq]

theorem matchLoop_eq (glob : Str → Str → Bool) (t : Str) (isDir : Bool)
    (rules : List ignoreRule) (ignored : Bool) :
    matchLoop glob (ToSlash t) (Base (ToSlash t)) isDir rules ignored =
      match (rules.filter (ruleApplies glob t isDir)).getLast? with
      | none => ignored
      | some r => !r.negate := by
  induction rules generalizing ignored with
  | nil => simp [matchLoop]
  | cons r rest ih =>
    unfold matchLoop
    by_cases hskip : r.dirOnly = true ∧ isDir = false
    · rw [if_pos hskip, ih]
      have : ruleApplies glob t isDir r = false := by
        simp [ruleApplies, hskip.1, hskip.2]
      simp [List.filter_cons, this]
    · rw [if_neg hskip]
      have hs : (!(r.dirOnly && !isDir)) = true := by
        cases hd : r.dirOnly <;> cases hi : isDir <;> simp_all
      by_cases hm : ruleMatched glob r (ToSlash t) (Base (ToSlash t)) = true
      · rw [if_pos hm, ih]
        have : ruleApplies glob t isDir r = true := by
          simp [ruleApplies, hs, hm]
        simp only [List.filter_cons, this, if_true]
        rw [List.getLast?_cons]
        cases (List.filter (ruleApplies glob t isDir) rest).getLast? with
        | none => cases hn : r.negate <;> simp [hn]
        | some x => simp
      · rw [if_neg hm, ih]
        have : ruleApplies glob t isDir r = false := by
          simp [ruleApplies, hm]
        simp [List.filter_cons, this]

theorem scanStep_eq (rules : List ignoreRule) (text : Str) :
    scanStep rules text =
      if specKept (TrimSpace text) = true then rules ++ [specRule (TrimSpace text)]
      else rules := by
  unfold scanStep specKept
  simp only [HasPrefix_singleton, HasSuffix_singleton, TrimPrefix_singleton,
    TrimSuffix_singleton]
  generalize TrimSpace text = line
  by_cases h1 : line = []
  · simp [h1]
  by_cases h2 : line.head? = some '#'
  · simp [h2]
  have hk : (decide (line ≠ []) && decide (line.head? ≠ some '#')) = true := by
    simp [h1, h2]
  rw [if_neg (by simp [h1, h2]), if_pos hk]
  congr 1
  unfold specRule
  by_cases h3 : line.head? = some '!'
  · by_cases h4 : line.tail.getLast? = some '/' <;> simp [h3, h4]
  · by_cases h4 : line.getLast? = some '/' <;> simp [h3, h4]

theorem foldl_scanStep (lines : List Str) (rules : List ignoreRule) :
    lines.foldl scanStep rules = rules ++ specRules lines := by
  induction lines generalizing rules with
  | nil => simp [specRules]
  | cons text rest ih =>
    rw [List.foldl_cons, ih, scanStep_eq]
    by_cases hk : specKept (TrimSpace text) = true
    · simp [specRules, hk, List.filter_cons]
    · simp [specRules, hk, List.filter_cons]

theorem specRules_append (a b : List Str) : specRules (a ++ b) = specRules a ++ specRules b := by
  simp [specRules]

theorem TrimSpace_append_space (l : Str) (c : Char) (hc : isSpace c = true) :
    TrimSpace (l ++ [c]) = TrimSpace l := by
  unfold TrimSpace
  rw [List.dropWhile_append]
  by_cases he : (List.dropWhile isSpace l).isEmpty = true
  · have h0 : List.dropWhile isSpace l = [] := List.isEmpty_iff.1 he
    simp [he, h0, List.dropWhile_cons, hc]
  · simp only [he, Bool.false_eq_true, if_false, List.reverse_append, List.reverse_cons,
      List.reverse_nil, List.nil_append, List.singleton_append, List.dropWhile_cons, hc, if_true]

theorem TrimSpace_dropCR (l : Str) : TrimSpace (dropCR l) = TrimSpace l := by
  unfold dropCR
  by_cases h : l.getLast? = some '\r'
  · rw [if_pos h]
    have hl : l = l.dropLast ++ ['\r'] := by
      rcases List.eq_nil_or_concat l with rfl | ⟨t, b, rfl⟩
      · simp at h
      · simp at h
        simp [h]
    conv_rhs => rw [hl]
    exact (TrimSpace_append_space l.dropLast '\r' (by decide)).symm
  · rw [if_neg h]

theorem specRules_map_dropCR (ls : List Str) : specRules (ls.map dropCR) = specRules ls := by
  simp only [specRules, List.map_map]
  congr 2
  apply List.map_congr_left
  intro l _
  exact TrimSpace_dropCR l

theorem specRules_rawLines (src : Str) :
    specRules (rawLines src) = specRules (src.splitOn '\n') := by
  unfold rawLines
  by_cases h : (src.splitOn '\n').getLast? = some []
  · simp only [h, if_true]
    have hl : src.splitOn '\n' = (src.splitOn '\n').dropLast ++ [[]] := by
      rcases List.eq_nil_or_concat (src.splitOn '\n') with h0 | ⟨t, b, hb⟩
      · rw [h0] at h; simp at h
      · rw [hb] at h ⊢
        simp at h
        simp [h]
    conv_rhs => rw [hl]
    rw [specRules_append]
    have h2 : specRules [[]] = [] := by decide
    rw [h2, List.append_nil]
  · simp only [h, if_false]

theorem rawLines_subset (src : Str) : ∀ line ∈ rawLines src, line ∈ src.splitOn '\n' := by
  intro line hl
  unfold rawLines at hl
  by_cases h : (src.splitOn '\n').getLast? = some []
  · simp only [h, if_true] at hl
    exact List.mem_of_mem_dropLast hl
  · simp only [h, if_false] at hl
    exact hl

theorem NewGitIgnoreMatcher_tokens (src : Str) :
    (NewGitIgnoreMatcher src).rules = specRules (scanTokens src) := by
  simp [NewGitIgnoreMatcher, foldl_scanStep]

theorem splitOn_line (rest : Str) : ∀ (pre : Str), '\n' ∉ pre →
    (pre ++ '\n' :: rest).splitOn '\n' = pre :: rest.splitOn '\n'
  | [], _ => by
    simp only [List.splitOn, List.nil_append, List.splitOnP_cons, beq_self_eq_true, if_true]
  | c :: pre, h => by
    have hc : (c == '\n') = false := by
      have : c ≠ '\n' := fun e => h (by simp [e])
      simpa using this
    have ih := splitOn_line rest pre (fun e => h (List.mem_cons_of_mem _ e))
    simp only [List.splitOn] at ih ⊢
    rw [List.cons_append, List.splitOnP_cons, hc, ih]
    simp [List.modifyHead]

theorem splitOn_last (post : Str) (h : '\n' ∉ post) : post.splitOn '\n' = [post] := by
  unfold List.splitOn
  apply List.splitOnP_eq_single
  intro x hx hp
  have : x = '\n' := by simpa using hp
  exact h (this ▸ hx)

theorem bytesOf_replicate (n : Nat) : (bytesOf (List.replicate n 'x')).length = n := by
  induction n with
  | zero => rfl
  | succ n ih =>
    have h1 : utf8EncodeChar 'x' = [120] := by decide
    rw [List.replicate_succ]
    simp only [bytesOf, List.flatMap_cons, h1, List.length_append, List.length_singleton] at ih ⊢
    omega

theorem scanTokens_long_line (pre long post : Str)
    (h1 : '\n' ∉ pre) (h2 : '\n' ∉ long) (h3 : '\n' ∉ post) (hpost : post ≠ [])
    (hpre : (bytesOf pre).length < MaxScanTokenSize)
    (hlong : MaxScanTokenSize ≤ (bytesOf long).length) :
    (pre ++ '\n' :: (long ++ '\n' :: post)).splitOn '\n' = [pre, long, post] ∧
    scanTokens (pre ++ '\n' :: (long ++ '\n' :: post)) = [dropCR pre] := by
  have hs : (pre ++ '\n' :: (long ++ '\n' :: post)).splitOn '\n' = [pre, long, post] := by
    rw [splitOn_line _ pre h1, splitOn_line _ long h2, splitOn_last post h3]
  refine ⟨hs, ?_⟩
  have hl : ¬ (bytesOf long).length < MaxScanTokenSize := by omega
  have hlast : ([pre, long, post] : List Str).getLast? = some post := rfl
  have hne : ¬ (some post = some ([] : Str)) := by
    intro h
    exact hpost (Option.some.inj h)
  simp only [scanTokens, rawLines, hs, hlast, hne, if_false, List.takeWhile_cons, hpre, hl,
    decide_True, decide_False, if_true, Bool.false_eq_true, List.map_cons, List.map_nil]

/-- C4, as stated, fails: in a source of three lines, `a.txt`, a line of 65536
letters `x` and `b.txt`, every line is neither blank nor a comment, yet
`NewGitIgnoreMatcher` yields the rule of `a.txt` only: the scan stops at the
line that does not fit the buffer and the rule of `b.txt` is missing. -/
theorem NewGitIgnoreMatcher_long_line :
    ("a.txt".toList ++ '\n' :: (List.replicate 65536 'x' ++ '\n' :: "b.txt".toList)).splitOn
      '\n' = ["a.txt".toList, List.replicate 65536 'x', "b.txt".toList] ∧
    (NewGitIgnoreMatcher
      ("a.txt".toList ++ '\n' :: (List.replicate 65536 'x' ++ '\n' :: "b.txt".toList))).rules =
      [{ pattern := "a.txt".toList, negate := false, dirOnly := false }] ∧
    ({ pattern := "b.txt".toList, negate := false, dirOnly := false } : ignoreRule) ∈
      specRules (("a.txt".toList ++ '\n' ::
        (List.replicate 65536 'x' ++ '\n' :: "b.txt".toList)).splitOn '\n') ∧
    (NewGitIgnoreMatcher
      ("a.txt".toList ++ '\n' :: (List.replicate 65536 'x' ++ '\n' :: "b.txt".toList))).rules ≠
      specRules (("a.txt".toList ++ '\n' ::
        (List.replicate 65536 'x' ++ '\n' :: "b.txt".toList)).splitOn '\n') := by
  have hx : '\n' ∉ List.replicate 65536 'x' := by
    intro h
    exact absurd (List.eq_of_mem_replicate h) (by decide)
  have hlen : MaxScanTokenSize ≤ (bytesOf (List.replicate 65536 'x')).length := by
    rw [bytesOf_replicate]
    decide
  obtain ⟨hs, ht⟩ := scanTokens_long_line "a.txt".toList (List.replicate 65536 'x')
    "b.txt".toList (by decide) hx (by decide) (by decide) (by decide) hlen
  have hrules : (NewGitIgnoreMatcher
      ("a.txt".toList ++ '\n' :: (List.replicate 65536 'x' ++ '\n' :: "b.txt".toList))).rules =
      [{ pattern := "a.txt".toList, negate := false, dirOnly := false }] := by
    rw [NewGitIgnoreMatcher_tokens, ht]
    decide
  have hmem : ({ pattern := "b.txt".toList, negate := false, dirOnly := false } : ignoreRule) ∈
      specRules (("a.txt".toList ++ '\n' ::
        (List.replicate 65536 'x' ++ '\n' :: "b.txt".toList)).splitOn '\n') := by
    rw [hs]
    have h3 : ["a.txt".toList, List.replicate 65536 'x', "b.txt".toList] =
        ["a.txt".toList, List.replicate 65536 'x'] ++ ["b.txt".toList] := rfl
    rw [h3, specRules_append]
    apply List.mem_append_right
    decide
  refine ⟨hs, hrules, hmem, ?_⟩
  intro heq
  rw [← heq, hrules] at hmem
  revert hmem
  decide

/-- C4, amended: for an ignore source whose lines are each shorter than 65536
bytes, the token limit of the scanner, `NewGitIgnoreMatcher` yields exactly one
rule per line whose trimmed text is neither empty nor a comment, in line order,
with `negate`, `dirOnly` and `pattern` as the specification derives them;
`!build/` gives the rule `build` (negated, directory-only), blank and comment
lines give no rule. -/
theorem NewGitIgnoreMatcher_rules (src : Str)
    (hshort : ∀ line ∈ src.splitOn '\n', (bytesOf line).length < MaxScanTokenSize) :
    (NewGitIgnoreMatcher src).rules = specRules (src.splitOn '\n') ∧
    (NewGitIgnoreMatcher "!build/".toList).rules =
      [{ pattern := "build".toList, negate := true, dirOnly := true }] ∧
    (NewGitIgnoreMatcher "\n  \t\n # note\n#x".toList).rules = [] := by
  refine ⟨?_, by decide, by decide⟩
  have htw : (rawLines src).takeWhile
      (fun line => decide ((bytesOf line).length < MaxScanTokenSize)) = rawLines src := by
    rw [List.takeWhile_eq_self_iff]
    intro line hl
    simpa using hshort line (rawLines_subset src line hl)
  rw [NewGitIgnoreMatcher_tokens, scanTokens, htw, specRules_map_dropCR, specRules_rawLines]

/-- The source of a comment, `!build/`, a blank line and `*.txt` ended by a
carriage return and a line feed gives the two rules `build` (negated,
directory-only) and `*.txt`. -/
theorem NewGitIgnoreMatcher_rules_witness :
    (∀ line ∈ "# c\n!build/\n\n*.txt\r\n".toList.splitOn '\n',
      (bytesOf line).length < MaxScanTokenSize) ∧
    (NewGitIgnoreMatcher "# c\n!build/\n\n*.txt\r\n".toList).rules =
      [{ pattern := "build".toList, negate := true, dirOnly := true },
       { pattern := "*.txt".toList, negate := false, dirOnly := false }] :=
  ⟨by decide,
   (NewGitIgnoreMatcher_rules "# c\n!build/\n\n*.txt\r\n".toList (by decide)).1.trans
     (by decide)⟩

theorem ToSlash_eq (path : Str) : ToSlash path = path := by
  simp [ToSlash, Separator]

theorem Match_eq (glob : Str → Str → Bool) (rules : List ignoreRule) (t : Str)
    (isDir : Bool) :
    GitIgnoreMatcher.Match glob { rules := rules } t isDir =
      match lastApplying glob rules t isDir with
      | none => false
      | some r => !r.negate := by
  simp only [GitIgnoreMatcher.Match, lastApplying]
  exact matchLoop_eq glob t isDir rules false

/-- C2: within one Matcher the last matching rule wins: `Match` is true iff
some rule applies to the target and the last applying rule is not negated, and
false when no rule applies; with `*.txt`, `!keep.txt` the file `keep.txt` is
re-included and `other.txt` stays ignored. -/
theorem Match_last_rule_wins (glob : Str → Str → Bool) (rules : List ignoreRule)
    (t : Str) (isDir : Bool) :
    (GitIgnoreMatcher.Match glob { rules := rules } t isDir = true ↔
      ∃ r, lastApplying glob rules t isDir = some r ∧ r.negate = false) ∧
    (GitIgnoreMatcher.Match glob { rules := rules } t isDir = false ↔
      lastApplying glob rules t isDir = none ∨
      ∃ r, lastApplying glob rules t isDir = some r ∧ r.negate = true) ∧
    (NewGitIgnoreMatcher "*.txt\n!keep.txt".toList).Match pathMatch
      "keep.txt".toList false = false ∧
    (NewGitIgnoreMatcher "*.txt\n!keep.txt".toList).Match pathMatch
      "other.txt".toList false = true := by
  refine ⟨?_, ?_, by decide, by decide⟩
  · rw [Match_eq]
    cases lastApplying glob rules t isDir with
    | none => simp
    | some r => simp
  · rw [Match_eq]
    cases lastApplying glob rules t isDir with
    | none => simp
    | some r => simp

theorem takeWhile_append_stop {α : Type} (p : α → Bool) (a : α) (r : List α)
    (ha : p a = false) : ∀ (l : List α), (∀ x ∈ l, p x = true) →
    List.takeWhile p (l ++ a :: r) = l
  | [], _ => by simp [List.takeWhile, ha]
  | x :: l, h => by
    have hx : p x = true := h x (List.mem_cons_self _ _)
    simp only [List.cons_append, List.takeWhile_cons, hx, if_true]
    rw [takeWhile_append_stop p a r ha l (fun y hy => h y (List.mem_cons_of_mem _ hy))]

theorem Base_of_name (dir name : Str) (hne : name ≠ []) (hs : '/' ∉ name) :
    Base (dir ++ '/' :: name) = name ∧ Base name = name := by
  have hrev : ∀ x ∈ name.reverse, (x != Separator) = true := by
    intro x hx
    rw [List.mem_reverse] at hx
    simp only [Separator, bne_iff_ne, ne_eq]
    rintro rfl
    exact hs hx
  obtain ⟨c, t, hct⟩ : ∃ c t, name.reverse = c :: t := by
    cases h : name.reverse with
    | nil => exact absurd (List.reverse_eq_nil_iff.1 h) hne
    | cons c t => exact ⟨c, t, rfl⟩
  have hc : (c == Separator) = false := by
    have := hrev c (by rw [hct]; exact List.mem_cons_self _ _)
    simpa [bne] using this
  have hstrip1 : stripTrailingSlashes (dir ++ '/' :: name) = dir ++ '/' :: name := by
    unfold stripTrailingSlashes
    rw [List.reverse_append, List.reverse_cons, List.append_assoc, hct]
    simp only [List.cons_append, List.dropWhile_cons, hc, Bool.false_eq_true, if_false]
    rw [← List.cons_append, ← hct]
    simp
  have hstrip2 : stripTrailingSlashes name = name := by
    unfold stripTrailingSlashes
    rw [hct]
    simp only [List.dropWhile_cons, hc, Bool.false_eq_true, if_false]
    rw [← hct, List.reverse_reverse]
  have hlast1 : lastElement (dir ++ '/' :: name) = name := by
    unfold lastElement
    rw [List.reverse_append, List.reverse_cons, List.append_assoc, List.singleton_append,
      takeWhile_append_stop _ '/' dir.reverse (by simp [Separator]) name.reverse hrev,
      List.reverse_reverse]
  have hlast2 : lastElement name = name := by
    unfold lastElement
    rw [List.takeWhile_eq_self_iff.2 hrev, List.reverse_reverse]
  constructor
  · unfold Base
    rw [if_neg (by simp)]
    simp only [hstrip1, hlast1, if_neg hne]
  · unfold Base
    rw [if_neg hne]
    simp only [hstrip2, hlast2, if_neg hne]

/-- C5: the `matched` value computed for a rule equals the specified
predicate: a pattern without `/` is globbed against the base name, so that the
directories above the name do not count; a pattern with `/` loses one leading
`/` and matches by equality, as a path suffix after a `/`, or by glob on the
whole target; `/src/a.go` matches `x/y/src/a.go`. -/
theorem ruleMatched_eq_spec (glob : Str → Str → Bool) (rule : ignoreRule) (t : Str) :
    ruleMatched glob rule (ToSlash t) (Base (ToSlash t)) =
      specRuleMatch glob rule.pattern t ∧
    (∀ dir name : Str, '/' ∉ rule.pattern → name ≠ [] → '/' ∉ name →
      ruleMatched glob rule (ToSlash (dir ++ '/' :: name))
        (Base (ToSlash (dir ++ '/' :: name))) = glob rule.pattern name ∧
      ruleMatched glob rule (ToSlash name) (Base (ToSlash name)) = glob rule.pattern name) ∧
    ruleMatched pathMatch { pattern := "/src/a.go".toList, negate := false, dirOnly := false }
      (ToSlash "x/y/src/a.go".toList) (Base (ToSlash "x/y/src/a.go".toList)) = true := by
  refine ⟨?_, ?_, by decide⟩
  · rw [ToSlash_eq]
    unfold ruleMatched specRuleMatch
    by_cases hc : '/' ∈ rule.pattern
    · have h1 : ¬ (Contains rule.pattern ['/'] = false) := by
        rw [Bool.not_eq_false]; exact (Contains_singleton _ _).2 hc
      rw [if_neg h1, if_pos hc]
      simp only [TrimPrefix_singleton, HasSuffix, List.isSuffixOf_iff_suffix]
      generalize (if rule.pattern.head? = some '/' then rule.pattern.tail else rule.pattern) = q
      by_cases e1 : t = q
      · simp [e1]
      · by_cases e2 : ('/' :: q) <:+ t
        · simp [e2]
        · simp [e1, e2]
    · have h1 : Contains rule.pattern ['/'] = false := by
        rw [← Bool.not_eq_true]; exact fun h => hc ((Contains_singleton _ _).1 h)
      rw [if_pos h1, if_neg hc]
  · intro dir name hp hne hs
    have h1 : Contains rule.pattern ['/'] = false := by
      rw [← Bool.not_eq_true]; exact fun h => hp ((Contains_singleton _ _).1 h)
    obtain ⟨b1, b2⟩ := Base_of_name dir name hne hs
    simp only [ToSlash_eq, ruleMatched, h1, if_true, b1, b2, and_self]

/-- The rule `*.go` matches `x/y/a.go` as it matches `a.go`. -/
theorem ruleMatched_eq_spec_witness :
    '/' ∉ "*.go".toList ∧ "a.go".toList ≠ [] ∧ '/' ∉ "a.go".toList ∧
    ruleMatched pathMatch { pattern := "*.go".toList, negate := false, dirOnly := false }
      (ToSlash ("x/y".toList ++ '/' :: "a.go".toList))
      (Base (ToSlash ("x/y".toList ++ '/' :: "a.go".toList))) =
      pathMatch "*.go".toList "a.go".toList :=
  ⟨by decide, by decide, by decide,
   ((ruleMatched_eq_spec pathMatch
      { pattern := "*.go".toList, negate := false, dirOnly := false } []).2.1
      "x/y".toList "a.go".toList (by decide) (by decide) (by decide)).1⟩

theorem matchLoop_filter (glob : Str → Str → Bool) (tp fn : Str)
    (rules : List ignoreRule) (ignored : Bool) :
    matchLoop glob tp fn false rules ignored =
      matchLoop glob tp fn false (rules.filter (fun r => !r.dirOnly)) ignored := by
  induction rules generalizing ignored with
  | nil => rfl
  | cons r rest ih =>
    cases hd : r.dirOnly
    · simp only [List.filter_cons, hd, Bool.not_false, if_true]
      unfold matchLoop
      simp only [hd, Bool.false_eq_true, false_and, if_false]
      split
      · exact ih _
      · exact ih _
    · simp only [List.filter_cons, hd, Bool.not_true, Bool.false_eq_true, if_false]
      rw [matchLoop]
      simp only [hd, and_self, if_true]
      exact ih _

/-- C6: for a non-directory target `Match` gives the same answer with all
directory-only rules removed, and a Matcher made only of directory-only rules
answers false; `build/` does not match a file named `build`. -/
theorem Match_file_ignores_dirOnly (glob : Str → Str → Bool) (rules : List ignoreRule)
    (t : Str) :
    GitIgnoreMatcher.Match glob { rules := rules } t false =
      GitIgnoreMatcher.Match glob { rules := rules.filter (fun r => !r.dirOnly) } t false ∧
    GitIgnoreMatcher.Match glob { rules := rules.filter (fun r => r.dirOnly) } t false = false ∧
    (NewGitIgnoreMatcher "build/".toList).Match pathMatch "build".toList false = false ∧
    (NewGitIgnoreMatcher "build/".toList).Match pathMatch "build".toList true = true := by
  refine ⟨?_, ?_, by decide, by decide⟩
  · simp only [GitIgnoreMatcher.Match]
    exact matchLoop_filter glob _ _ rules false
  · simp only [GitIgnoreMatcher.Match]
    rw [matchLoop_filter, List.filter_filter]
    have : List.filter (fun a => (!a.dirOnly) && a.dirOnly) rules = [] := by
      rw [List.filter_eq_nil_iff]
      intro a _
      cases a.dirOnly <;> simp
    rw [this]
    rfl

theorem ShouldIgnore_eq_any (glob : Str → Str → Bool) (matchers : List GitIgnoreMatcher)
    (path : Str) (isDir : Bool) :
    ShouldIgnore glob matchers path isDir =
      matchers.any (fun m => m.Match glob path isDir) := by
  induction matchers with
  | nil => rfl
  | cons m rest ih =>
    unfold ShouldIgnore
    cases h : m.Match glob path isDir <;> simp [h, ih]

/-- C1, at the input where the code departs from it: with Matcher 1 =
`*.log` and Matcher 2 = `!keep.log`, `ShouldIgnore` answers true for the file
`keep.log`, while the last matching rule of the concatenated rules is the
negation, whose polarity is false (what one Matcher holding both rules
answers). -/
theorem ShouldIgnore_first_matcher_decides :
    ShouldIgnore pathMatch
      [NewGitIgnoreMatcher "*.log".toList, NewGitIgnoreMatcher "!keep.log".toList]
      "keep.log".toList false = true ∧
    lastApplying pathMatch
      ((NewGitIgnoreMatcher "*.log".toList).rules ++
        (NewGitIgnoreMatcher "!keep.log".toList).rules)
      "keep.log".toList false =
      some { pattern := "keep.log".toList, negate := true, dirOnly := false } ∧
    GitIgnoreMatcher.Match pathMatch
      { rules := (NewGitIgnoreMatcher "*.log".toList).rules ++
          (NewGitIgnoreMatcher "!keep.log".toList).rules }
      "keep.log".toList false = false := by
  refine ⟨by decide, by decide, by decide⟩

/-! ## The traversal -/

theorem walkFn_dir_entries (env : Env) (path name : Str) (rd : Bool)
    (es es2 : List Node) (walkErr : Bool) (w : World) :
    walkFn env path (Node.dir name rd es) walkErr w =
      walkFn env path (Node.dir name rd es2) walkErr w := by
  simp only [walkFn]

theorem walkFn_ignored_dir (env : Env) (path name : Str) (rd : Bool) (es : List Node)
    (w : World) (h : ShouldIgnore env.glob env.matchers path true = true) :
    walkFn env path (Node.dir name rd es) false w = (Step.skipDir, (ctxErr env w).2) ∨
    walkFn env path (Node.dir name rd es) false w =
      (Step.fail Err.canceled, (ctxErr env w).2) := by
  simp only [walkFn]
  rcases hc : ctxErr env w with ⟨c, w1⟩
  cases c
  · left; simp [h]
  · right; simp

theorem ctxErr_writes (env : Env) (w : World) :
    (ctxErr env w).2.writes = w.writes ∧ (ctxErr env w).2.asked = w.asked := by
  simp [ctxErr]

theorem prune_name (env : Env) (path : Str) (d : Node) :
    (prune env path d).name = d.name := by
  cases d with
  | file name f => simp [prune, Node.name]
  | dir name rd es =>
    simp only [prune]
    split <;> simp [Node.name]

theorem walkDir_ignored (env : Env) (path name : Str) (rd : Bool) (es : List Node)
    (w : World) (h : ShouldIgnore env.glob env.matchers path true = true) :
    walkDir env path (Node.dir name rd es) w = walkDir env path (Node.dir name rd []) w ∧
    (walkDir env path (Node.dir name rd es) w).2.writes = w.writes ∧
    (walkDir env path (Node.dir name rd es) w).2.asked = w.asked := by
  have hw := ctxErr_writes env w
  rcases walkFn_ignored_dir env path name rd es w h with h1 | h1
  · have h2 := walkFn_dir_entries env path name rd es [] false w
    simp only [walkDir, ← h2, h1, hw, and_self]
  · have h2 := walkFn_dir_entries env path name rd es [] false w
    simp only [walkDir, ← h2, h1, hw, and_self]

mutual
theorem walkDir_prune (env : Env) : ∀ (path : Str) (d : Node) (w : World),
    walkDir env path d w = walkDir env path (prune env path d) w
  | path, Node.file name f, w => by simp [prune]
  | path, Node.dir name rd es, w => by
    by_cases h : ShouldIgnore env.glob env.matchers path true = true
    · simp only [prune, h, if_true]
      exact (walkDir_ignored env path name rd es w h).1
    · have hp : prune env path (Node.dir name rd es) =
          Node.dir name rd (pruneEntries env path es) := by
        simp only [prune, if_neg h]
      rw [hp]
      simp only [walkDir]
      rw [walkFn_dir_entries env path name rd es (pruneEntries env path es) false w]
      rcases walkFn env path (Node.dir name rd (pruneEntries env path es)) false w with ⟨s, w1⟩
      cases s with
      | ok =>
        simp only
        rw [walkFn_dir_entries env path name rd es (pruneEntries env path es) true w1]
        cases rd
        · simp only [Bool.false_eq_true, if_false]
          exact walkEntries_prune env path es w1
        · simp only [if_true]
          rcases walkFn env path (Node.dir name true (pruneEntries env path es)) true w1
            with ⟨s2, w2⟩
          cases s2 with
          | ok => exact walkEntries_prune env path es w2
          | skipDir => rfl
          | fail e => rfl
      | skipDir => rfl
      | fail e => rfl
theorem walkEntries_prune (env : Env) : ∀ (path : Str) (es : List Node) (w : World),
    walkEntries env path es w = walkEntries env path (pruneEntries env path es) w
  | path, [], w => by simp [pruneEntries]
  | path, d :: rest, w => by
    simp only [pruneEntries, walkEntries, prune_name]
    rw [← walkDir_prune env (Join path d.name) d w]
    rcases walkDir env (Join path d.name) d w with ⟨s, w1⟩
    cases s with
    | ok => exact walkEntries_prune env path rest w1
    | skipDir => rfl
    | fail e => rfl
end

/-- C3: a directory that the Ignore Engine reports as ignored is pruned:
`Execute` gives the same result and output on a tree as on the tree without
everything beneath its ignored directories, and the walk of an ignored
directory does not look at its entries and writes nothing; with `build/` then
`!build/keep.txt` the file `build/keep.txt` gives no output although `Match`
is false for it. -/
theorem ignored_directory_pruned (env : Env) (root : Node) (w : World)
    (path name : Str) (rd : Bool) (entries : List Node) (w1 : World) :
    Execute env (some root) w = Execute env (some (prune env env.targetDir root)) w ∧
    (ShouldIgnore env.glob env.matchers path true = true →
      walkDir env path (Node.dir name rd entries) w1 =
        walkDir env path (Node.dir name rd []) w1 ∧
      (walkDir env path (Node.dir name rd entries) w1).2.writes = w1.writes) ∧
    (Execute (exampleEnv ["build/".toList, "!build/keep.txt".toList])
      (some (Node.dir ".".toList false
        [Node.dir "build".toList false
          [Node.file "keep.txt".toList (exampleFile (bytesOf "kept".toList))]]))
      World.init).2.writes = [] ∧
    (NewGitIgnoreMatcher "build/\n!build/keep.txt".toList).Match pathMatch
      "build/keep.txt".toList false = false := by
  refine ⟨?_, ?_, by decide, by decide⟩
  · simp only [Execute]
    rw [← walkDir_prune]
  · intro h
    exact ⟨(walkDir_ignored env path name rd entries w1 h).1,
      (walkDir_ignored env path name rd entries w1 h).2.1⟩

/-- The walk of the ignored directory `build` writes nothing, whatever it
holds. -/
theorem ignored_directory_pruned_witness :
    ShouldIgnore pathMatch [NewGitIgnoreMatcher "build/".toList] "build".toList true = true ∧
    (walkDir (exampleEnv ["build/".toList]) "build".toList
      (Node.dir "build".toList false
        [Node.file "keep.txt".toList (exampleFile (bytesOf "kept".toList))])
      World.init).2.writes = World.init.writes :=
  ⟨by decide,
   ((ignored_directory_pruned (exampleEnv ["build/".toList]) (Node.dir [] false [])
      World.init "build".toList "build".toList false
      [Node.file "keep.txt".toList (exampleFile (bytesOf "kept".toList))]
      World.init).2.1 (by decide)).2⟩



/-! ## Emission -/

theorem multiRead_ok (n : Nat) (hn : 0 < n) : ∀ (src : List SrcReader),
    (∀ r ∈ src, r.fail = none) →
    (multiRead src n).1 ++ srcData (multiRead src n).2.2 = srcData src ∧
    (∀ r ∈ (multiRead src n).2.2, r.fail = none) ∧
    ((multiRead src n).2.1 = none ∨
      ((multiRead src n).2.1 = some ReadErr.eof ∧ (multiRead src n).1 = [] ∧
        srcData src = [])) ∧
    ((multiRead src n).2.1 = none → srcSize (multiRead src n).2.2 < srcSize src)
  | [], _ => by simp [multiRead, srcData, srcSize]
  | r :: rest, hf => by
    have hr : r.fail = none := hf r (List.mem_cons_self _ _)
    have hrest : ∀ x ∈ rest, x.fail = none := fun x hx => hf x (List.mem_cons_of_mem _ hx)
    have ih := multiRead_ok n hn rest hrest
    unfold multiRead SrcReader.Read
    by_cases hd : r.data = []
    · simp only [hd, hr, if_true, ne_eq, not_true_eq_false, if_false]
      obtain ⟨h1, h2, h3, h4⟩ := ih
      refine ⟨?_, h2, ?_, ?_⟩
      · simpa [srcData, hd] using h1
      · rcases h3 with h3 | ⟨h3, h5, h6⟩
        · exact Or.inl h3
        · exact Or.inr ⟨h3, h5, by simpa [srcData, hd] using h6⟩
      · intro h5
        have := h4 h5
        simp only [srcSize, List.map_cons, List.sum_cons] at this ⊢
        omega
    · simp only [hd, if_false, reduceCtorEq]
      refine ⟨?_, ?_, Or.inl trivial, ?_⟩
      · simp only [srcData, List.map_cons, List.flatten_cons]
        rw [← List.append_assoc, List.take_append_drop]
      · intro x hx
        rcases List.mem_cons.1 hx with rfl | hx
        · exact hr
        · exact hrest x hx
      · intro _
        have : 0 < r.data.length := List.length_pos.2 hd
        simp only [srcSize, List.map_cons, List.sum_cons, List.length_drop]
        omega

theorem ctxErr_live (env : Env) (w : World) (hc : env.cancelAt = none) :
    ctxErr env w = (false, { w with polls := w.polls + 1 }) := by
  simp [ctxErr, hc]

theorem copyWrite_ok (env : Env) (buf : Bytes) (w : World)
    (hs : ∀ h p, env.sink h p = (p.length, none)) :
    (copyWrite env buf w).1 = none ∧
    (copyWrite env buf w).2.writes.flatten = w.writes.flatten ++ buf ∧
    (copyWrite env buf w).2.asked = w.asked := by
  unfold copyWrite outputWrite
  by_cases hb : 0 < buf.length
  · simp [hb, hs]
  · have : buf = [] := by
      cases buf with
      | nil => rfl
      | cons a t => simp at hb
    simp [this]

theorem copyCancellable_unfold (env : Env) (src : List SrcReader) (w : World) :
    copyCancellable env src w =
      match ctxErr env w with
      | (true, w1) => (some Err.canceled, w1)
      | (false, w1) =>
        match copyWrite env (multiRead src copyBufSize).1 w1 with
        | (some e, w2) => (some e, w2)
        | (none, w2) =>
          match (multiRead src copyBufSize).2.1 with
          | some ReadErr.eof => (none, w2)
          | some (ReadErr.fail e) => (some e, w2)
          | none => copyCancellable env (multiRead src copyBufSize).2.2 w2 := by
  rw [copyCancellable]
  rcases ctxErr env w with ⟨c, w1⟩
  cases c
  · simp only
    rcases copyWrite env (multiRead src copyBufSize).1 w1 with ⟨o, w2⟩
    cases o with
    | some e => rfl
    | none =>
      simp only
      split <;> (rename_i hq _; rw [hq])
  · rfl

theorem copyCancellable_ok (env : Env) (hc : env.cancelAt = none)
    (hs : ∀ h p, env.sink h p = (p.length, none)) :
    ∀ (k : Nat) (src : List SrcReader) (w : World), srcSize src ≤ k →
    (∀ r ∈ src, r.fail = none) →
    (copyCancellable env src w).1 = none ∧
    (copyCancellable env src w).2.writes.flatten = w.writes.flatten ++ srcData src ∧
    (copyCancellable env src w).2.asked = w.asked := by
  intro k
  induction k with
  | zero =>
    intro src w hk hf
    have hm := multiRead_ok copyBufSize (by decide) src hf
    have hlt : (multiRead src copyBufSize).2.1 ≠ none := by
      intro h0
      have := hm.2.2.2 h0
      omega
    rcases hm.2.2.1 with h0 | ⟨h1, h2, h3⟩
    · exact absurd h0 hlt
    · have hw := copyWrite_ok env (multiRead src copyBufSize).1
        { w with polls := w.polls + 1 } hs
      rw [copyCancellable_unfold, ctxErr_live env w hc]
      simp only
      rcases hcw : copyWrite env (multiRead src copyBufSize).1
        { w with polls := w.polls + 1 } with ⟨o, w2⟩
      rw [hcw] at hw
      simp only at hw
      obtain ⟨hw1, hw2, hw3⟩ := hw
      subst hw1
      simp only [h1]
      refine ⟨trivial, ?_, hw3⟩
      rw [hw2, h2, h3]
  | succ k ih =>
    intro src w hk hf
    have hm := multiRead_ok copyBufSize (by decide) src hf
    have hw := copyWrite_ok env (multiRead src copyBufSize).1
      { w with polls := w.polls + 1 } hs
    rw [copyCancellable_unfold, ctxErr_live env w hc]
    simp only
    rcases hcw : copyWrite env (multiRead src copyBufSize).1
      { w with polls := w.polls + 1 } with ⟨o, w2⟩
    rw [hcw] at hw
    simp only at hw
    obtain ⟨hw1, hw2, hw3⟩ := hw
    subst hw1
    rcases hm.2.2.1 with h0 | ⟨h1, h2, h3⟩
    · simp only [h0]
      have hlt := hm.2.2.2 h0
      obtain ⟨i1, i2, i3⟩ := ih (multiRead src copyBufSize).2.2 w2 (by omega) hm.2.1
      refine ⟨i1, ?_, ?_⟩
      · rw [i2, hw2, List.append_assoc, hm.1]
      · rw [i3, hw3]
    · simp only [h1]
      refine ⟨trivial, ?_, hw3⟩
      rw [hw2, h2, h3]


theorem readHead_ok (f : FileData) (hread : f.readErr = none) :
    readHead f = some (f.content.take 512) ∧
    srcData [{ data := f.content.take 512, fail := none }, fileRest f (f.content.take 512)] =
      f.content ∧
    (fileRest f (f.content.take 512)).fail = none := by
  refine ⟨?_, ?_, ?_⟩
  · unfold readHead FileData.readable
    simp only [hread, Option.isSome_none, Bool.false_eq_true, if_false]
    by_cases h : 512 ≤ f.content.length
    · simp [h]
    · simp only [h, if_false]
      rw [List.take_of_length_le (by omega)]
  · simp only [srcData, fileRest, FileData.readable, hread, List.map_cons, List.map_nil,
      List.flatten_cons, List.flatten_nil, List.append_nil, List.length_take]
    by_cases h : 512 ≤ f.content.length
    · rw [Nat.min_eq_left h, List.take_append_drop]
    · rw [Nat.min_eq_right (by omega), List.take_of_length_le (by omega),
        List.drop_of_length_le (le_refl _), List.append_nil]
  · simp [fileRest, hread]

theorem writeMarkdownEntry_text_ok (env : Env) (hc : env.cancelAt = none)
    (hs : ∀ h p, env.sink h p = (p.length, none)) (path lang : Str)
    (src : List SrcReader) (w : World) (hf : ∀ r ∈ src, r.fail = none) :
    (writeMarkdownEntry env path lang (some src) false w).1 = none ∧
    (writeMarkdownEntry env path lang (some src) false w).2.writes.flatten =
      w.writes.flatten ++
        (bytesOf (entryHeader (normalizedPath env path) lang false) ++ srcData src ++
          bytesOf "\n```\n".toList) ∧
    (writeMarkdownEntry env path lang (some src) false w).2.asked = w.asked := by
  unfold writeMarkdownEntry
  simp only [outputWrite, hs]
  obtain ⟨c1, c2, c3⟩ := copyCancellable_ok env hc hs _ src
    { w with writes := w.writes ++ [bytesOf (entryHeader (normalizedPath env path) lang false)] }
    (le_refl _) hf
  rcases hcp : copyCancellable env src
    { w with writes := w.writes ++ [bytesOf (entryHeader (normalizedPath env path) lang false)] }
    with ⟨o, w2⟩
  rw [hcp] at c1 c2 c3
  simp only at c1 c2 c3
  subst c1
  simp only [List.flatten_append, List.flatten_cons, List.flatten_nil, List.append_nil, c2, c3,
    List.append_assoc, and_self]

theorem processFile_declined (env : Env) (path : Str) (f : FileData) (w : World) (head : Bytes)
    (hopen : f.openErr = false)
    (hlive : env.cancelAt = none)
    (hhead : readHead f = some head)
    (htext : isBinary env.detect head = false)
    (hbig : f.size > DefaultThreshold)
    (hdecl : env.handler w.asked path f.size = Except.ok false) :
    processFile env path f w =
      (none, { polls := w.polls + 1, writes := w.writes,
               asked := w.asked ++ [(path, f.size)] }) := by
  simp only [processFile, hopen, ctxErr_live env w hlive, hhead, htext, hbig, hdecl,
    Bool.false_eq_true, if_false, if_true]

theorem readHead_replicate (f : FileData) (n a : Nat) (hread : f.readErr = none)
    (hcontent : f.content = List.replicate n a) (hn : 512 ≤ n) :
    readHead f = some (List.replicate 512 a) ∧ f.content.take 512 = List.replicate 512 a := by
  have ht : f.content.take 512 = List.replicate 512 a := by
    rw [hcontent, List.take_replicate, Nat.min_eq_left hn]
  refine ⟨?_, ht⟩
  rw [(readHead_ok f hread).1, ht]

theorem isBinary_replicate (detect : Bytes → Str) (n a : Nat) (hn : 0 < n) (ha : a ≠ 0)
    (hd : detect (List.replicate n a) = "text/plain; charset=utf-8".toList) :
    isBinary detect (List.replicate n a) = false := by
  have h0 : (0 : Nat) ∉ List.replicate n a := by
    intro h
    exact ha (List.eq_of_mem_replicate h).symm
  have hl : ¬ (List.replicate n a).length = 0 := by
    rw [List.length_replicate]
    omega
  unfold isBinary
  rw [if_neg hl, if_neg h0, hd]
  decide

/-- C7, as stated, fails: for a text file of 512001 bytes, each the letter
`a`, with no cancellation, a sink that accepts every write and a policy that
declines, `processFile` consults the policy and writes nothing, not the header,
the content and the closing fence. -/
theorem processFile_declined_writes_nothing :
    exampleBigTextFile.content = List.replicate 512001 97 ∧
    exampleBigTextFile.size = 512001 ∧
    (exampleEnv []).cancelAt = none ∧
    (∀ h p, (exampleEnv []).sink h p = (p.length, none)) ∧
    isBinary (exampleEnv []).detect (exampleBigTextFile.content.take 512) = false ∧
    processFile (exampleEnv []) "big.txt".toList exampleBigTextFile World.init =
      (none, { polls := 1, writes := [], asked := [("big.txt".toList, 512001)] }) ∧
    (processFile (exampleEnv []) "big.txt".toList exampleBigTextFile
      World.init).2.writes.flatten ≠
      bytesOf "\n## File: big.txt\n\n```\n".toList ++ exampleBigTextFile.content ++
        bytesOf "\n```\n".toList := by
  obtain ⟨hh, ht⟩ := readHead_replicate exampleBigTextFile 512001 97 rfl rfl (by decide)
  have hb : isBinary (exampleEnv []).detect (List.replicate 512 97) = false :=
    isBinary_replicate _ 512 97 (by decide) (by decide) rfl
  have hp := processFile_declined (exampleEnv []) "big.txt".toList exampleBigTextFile World.init
    (List.replicate 512 97) rfl rfl hh hb (by decide) rfl
  refine ⟨rfl, rfl, rfl, fun _ _ => rfl, ?_, hp, ?_⟩
  · rw [ht]
    exact hb
  · rw [hp]
    intro h
    have h1 : bytesOf "\n## File: big.txt\n\n```\n".toList ++ exampleBigTextFile.content ++
        bytesOf "\n```\n".toList = [] := h.symm
    have h2 := (List.append_eq_nil.1 (List.append_eq_nil.1 h1).1).1
    exact absurd h2 (by decide)

/-- C7, amended: text emission is a lossless round trip for every text file
that is emitted: with no cancellation, a sink that accepts every write and a
file that opens and reads without error, for a text file whose size is at most
the threshold or which the policy accepts, `processFile` returns nil and the
bytes written are the header naming the path relative to the target directory
(the path itself when `filepath.Rel` fails) and the language, then the whole
content, then the closing fence, for a content of any length. -/
theorem processFile_round_trip (env : Env) (path : Str) (f : FileData) (w : World)
    (hc : env.cancelAt = none)
    (hs : ∀ h p, env.sink h p = (p.length, none))
    (hopen : f.openErr = false)
    (hread : f.readErr = none)
    (htext : isBinary env.detect (f.content.take 512) = false)
    (hsize : f.size ≤ DefaultThreshold ∨ env.handler w.asked path f.size = Except.ok true) :
    (processFile env path f w).1 = none ∧
    (∀ rel, env.Rel env.targetDir path = some rel →
      (processFile env path f w).2.writes.flatten =
        w.writes.flatten ++
          (bytesOf ("\n## File: ".toList ++ rel ++ "\n\n```".toList ++
              env.GetLanguage path ++ "\n".toList) ++
            f.content ++ bytesOf "\n```\n".toList)) ∧
    (env.Rel env.targetDir path = none →
      (processFile env path f w).2.writes.flatten =
        w.writes.flatten ++
          (bytesOf ("\n## File: ".toList ++ path ++ "\n\n```".toList ++
              env.GetLanguage path ++ "\n".toList) ++
            f.content ++ bytesOf "\n```\n".toList)) := by
  obtain ⟨r1, r2, r3⟩ := readHead_ok f hread
  have hsrc : ∀ r ∈ [({ data := f.content.take 512, fail := none } : SrcReader),
      fileRest f (f.content.take 512)], r.fail = none := by
    intro r hr
    simp only [List.mem_cons, List.mem_singleton, List.not_mem_nil, or_false] at hr
    rcases hr with rfl | rfl
    · rfl
    · exact r3
  have hhead : entryHeader (normalizedPath env path) (env.GetLanguage path) false =
      "\n## File: ".toList ++ normalizedPath env path ++ "\n\n```".toList ++
        env.GetLanguage path ++ "\n".toList := by
    simp [entryHeader]
  have hmain : (processFile env path f w).1 = none ∧
      (processFile env path f w).2.writes.flatten =
        w.writes.flatten ++
          (bytesOf ("\n## File: ".toList ++ normalizedPath env path ++ "\n\n```".toList ++
              env.GetLanguage path ++ "\n".toList) ++
            f.content ++ bytesOf "\n```\n".toList) := by
    unfold processFile
    simp only [hopen, Bool.false_eq_true, if_false, ctxErr_live env w hc, r1, htext]
    by_cases hbig : f.size > DefaultThreshold
    · have hh : env.handler w.asked path f.size = Except.ok true := by
        rcases hsize with h | h
        · omega
        · exact h
      simp only [hbig, if_true, hh]
      obtain ⟨e1, e2, _⟩ := writeMarkdownEntry_text_ok env hc hs path (env.GetLanguage path) _
        { polls := w.polls + 1, writes := w.writes, asked := w.asked ++ [(path, f.size)] } hsrc
      rw [r2, hhead] at e2
      exact ⟨e1, e2⟩
    · simp only [hbig, if_false]
      obtain ⟨e1, e2, _⟩ := writeMarkdownEntry_text_ok env hc hs path (env.GetLanguage path) _
        { polls := w.polls + 1, writes := w.writes, asked := w.asked } hsrc
      rw [r2, hhead] at e2
      exact ⟨e1, e2⟩
  refine ⟨hmain.1, ?_, ?_⟩
  · intro rel hrel
    have hn : normalizedPath env path = rel := by
      simp only [normalizedPath, hrel, ToSlash_eq]
    rw [← hn]
    exact hmain.2
  · intro hrel
    have hn : normalizedPath env path = path := by
      simp only [normalizedPath, hrel, ToSlash_eq]
    have h2 := hmain.2
    rw [hn] at h2
    exact h2

/-- Under the target directory `proj`, the file `proj/a.txt` holding `hello`
is written as the header naming `a.txt`, then `hello`, then the closing
fence. -/
theorem processFile_round_trip_witness :
    (exampleEnvAt "proj".toList []).cancelAt = none ∧
    (exampleFile (bytesOf "hello".toList)).openErr = false ∧
    (exampleFile (bytesOf "hello".toList)).readErr = none ∧
    isBinary (exampleEnvAt "proj".toList []).detect
      ((exampleFile (bytesOf "hello".toList)).content.take 512) = false ∧
    (exampleFile (bytesOf "hello".toList)).size ≤ DefaultThreshold ∧
    (exampleEnvAt "proj".toList []).Rel (exampleEnvAt "proj".toList []).targetDir
      "proj/a.txt".toList = some "a.txt".toList ∧
    (processFile (exampleEnvAt "proj".toList []) "proj/a.txt".toList
      (exampleFile (bytesOf "hello".toList)) World.init).2.writes.flatten =
      bytesOf "\n## File: a.txt\n\n```\nhello\n```\n".toList :=
  ⟨rfl, rfl, rfl, by decide, by decide, by decide,
   ((processFile_round_trip (exampleEnvAt "proj".toList []) "proj/a.txt".toList
      (exampleFile (bytesOf "hello".toList))
      World.init rfl (fun _ _ => rfl) rfl rfl (by decide) (Or.inl (by decide))).2.1
      "a.txt".toList (by decide)).trans (by decide)⟩


/-! ## The size threshold -/

theorem copyWrite_appends (env : Env) (buf : Bytes) (w : World) :
    (∃ more, (copyWrite env buf w).2.writes = w.writes ++ more) ∧
    (copyWrite env buf w).2.asked = w.asked := by
  rcases hsk : env.sink w.writes buf with ⟨nw, ew⟩
  by_cases hb : 0 < buf.length
  · cases ew with
    | some e =>
      simp only [copyWrite, outputWrite, hb, hsk, if_true]
      exact ⟨⟨[buf], rfl⟩, trivial⟩
    | none =>
      simp only [copyWrite, outputWrite, hb, hsk, if_true]
      split
      · exact ⟨⟨[buf], rfl⟩, rfl⟩
      · exact ⟨⟨[buf], rfl⟩, rfl⟩
  · simp only [copyWrite, hb, if_false]
    exact ⟨⟨[], by simp⟩, trivial⟩

theorem multiRead_decreases : ∀ (src : List SrcReader),
    (multiRead src copyBufSize).2.1 = none →
    srcSize (multiRead src copyBufSize).2.2 < srcSize src
  | [], h0 => by simp [multiRead] at h0
  | r :: rest, h0 => by
    unfold multiRead SrcReader.Read at h0 ⊢
    by_cases hd : r.data = []
    · simp only [hd, if_true] at h0 ⊢
      cases hf : r.fail with
      | none =>
        simp only [hf, if_true, ne_eq, not_true_eq_false, if_false] at h0 ⊢
        have := multiRead_decreases rest h0
        simp only [srcSize, List.map_cons, List.sum_cons] at this ⊢
        omega
      | some e => simp [hf] at h0
    · simp only [hd, if_false] at h0 ⊢
      simp only [reduceCtorEq, if_false, srcSize, List.map_cons, List.sum_cons,
        List.length_drop]
      have : 0 < r.data.length := List.length_pos.2 hd
      have : 0 < copyBufSize := by decide
      omega

theorem copyCancellable_appends (env : Env) :
    ∀ (k : Nat) (src : List SrcReader) (w : World), srcSize src ≤ k →
    (∃ more, (copyCancellable env src w).2.writes = w.writes ++ more) ∧
    (copyCancellable env src w).2.asked = w.asked := by
  intro k
  induction k with
  | zero =>
    intro src w hk
    have hsrc : src = [] := by
      cases src with
      | nil => rfl
      | cons r rest => simp [srcSize] at hk
    subst hsrc
    rw [copyCancellable_unfold]
    rcases hcx : ctxErr env w with ⟨c, w1⟩
    have h1 := ctxErr_writes env w
    rw [hcx] at h1
    simp only at h1
    cases c
    · simp only [multiRead]
      obtain ⟨⟨more, hm⟩, ha⟩ := copyWrite_appends env [] w1
      rcases hcw : copyWrite env [] w1 with ⟨o, w2⟩
      rw [hcw] at hm ha
      simp only at hm ha
      cases o with
      | some e => exact ⟨⟨more, by rw [hm, h1.1]⟩, by rw [ha, h1.2]⟩
      | none => exact ⟨⟨more, by rw [hm, h1.1]⟩, by rw [ha, h1.2]⟩
    · exact ⟨⟨[], by simpa using h1.1⟩, h1.2⟩
  | succ k ih =>
    intro src w hk
    rw [copyCancellable_unfold]
    rcases hcx : ctxErr env w with ⟨c, w1⟩
    have h1 := ctxErr_writes env w
    rw [hcx] at h1
    simp only at h1
    cases c
    · simp only
      obtain ⟨⟨more, hm⟩, ha⟩ := copyWrite_appends env (multiRead src copyBufSize).1 w1
      rcases hcw : copyWrite env (multiRead src copyBufSize).1 w1 with ⟨o, w2⟩
      rw [hcw] at hm ha
      simp only at hm ha
      cases o with
      | some e => exact ⟨⟨more, by rw [hm, h1.1]⟩, by rw [ha, h1.2]⟩
      | none =>
        simp only
        rcases her : (multiRead src copyBufSize).2.1 with _ | er
        · simp only
          have hlt := multiRead_decreases src her
          obtain ⟨⟨more2, hm2⟩, ha2⟩ := ih (multiRead src copyBufSize).2.2 w2 (by omega)
          refine ⟨⟨more ++ more2, ?_⟩, ?_⟩
          · rw [hm2, hm, h1.1, List.append_assoc]
          · rw [ha2, ha, h1.2]
        · cases er with
          | eof => exact ⟨⟨more, by rw [hm, h1.1]⟩, by rw [ha, h1.2]⟩
          | fail e => exact ⟨⟨more, by rw [hm, h1.1]⟩, by rw [ha, h1.2]⟩
    · exact ⟨⟨[], by simpa using h1.1⟩, h1.2⟩

theorem writeMarkdownEntry_appends (env : Env) (path lang : Str)
    (r : Option (List SrcReader)) (b : Bool) (w : World) :
    (∃ more, (writeMarkdownEntry env path lang r b w).2.writes =
      w.writes ++ bytesOf (entryHeader (normalizedPath env path) lang b) :: more) ∧
    (writeMarkdownEntry env path lang r b w).2.asked = w.asked := by
  rcases hsk : env.sink w.writes (bytesOf (entryHeader (normalizedPath env path) lang b))
    with ⟨n1, e1⟩
  cases e1 with
  | some e =>
    simp only [writeMarkdownEntry, outputWrite, hsk]
    exact ⟨⟨[], rfl⟩, trivial⟩
  | none =>
    cases b with
    | true =>
      simp only [writeMarkdownEntry, outputWrite, hsk]
      exact ⟨⟨[], rfl⟩, trivial⟩
    | false =>
      cases r with
      | none =>
        simp only [writeMarkdownEntry, outputWrite, hsk]
        exact ⟨⟨[], rfl⟩, trivial⟩
      | some src =>
        obtain ⟨⟨more, hm⟩, ha⟩ := copyCancellable_appends env _ src
          { w with writes := w.writes ++
            [bytesOf (entryHeader (normalizedPath env path) lang false)] } (le_refl _)
        rcases hcp : copyCancellable env src
          { w with writes := w.writes ++
            [bytesOf (entryHeader (normalizedPath env path) lang false)] } with ⟨o, w2⟩
        rw [hcp] at hm ha
        simp only at hm ha
        cases o with
        | some e =>
          simp only [writeMarkdownEntry, outputWrite, hsk, hcp]
          exact ⟨⟨more, by simpa using hm⟩, ha⟩
        | none =>
          rcases hs3 : env.sink w2.writes (bytesOf "\n```\n".toList) with ⟨n3, e3⟩
          cases e3 with
          | some e =>
            simp only [writeMarkdownEntry, outputWrite, hsk, hcp, hs3]
            refine ⟨⟨more ++ [bytesOf "\n```\n".toList], ?_⟩, ha⟩
            simp [hm]
          | none =>
            simp only [writeMarkdownEntry, outputWrite, hsk, hcp, hs3]
            refine ⟨⟨more ++ [bytesOf "\n```\n".toList], ?_⟩, ha⟩
            simp [hm]

theorem walkEntries_fail (env : Env) (path : Str) (d : Node) (rest : List Node)
    (w w1 : World) (e : Err)
    (h : walkDir env (Join path d.name) d w = (Step.fail e, w1)) :
    walkEntries env path (d :: rest) w = (Step.fail e, w1) := by
  simp only [walkEntries, h]

theorem walkDir_fail (env : Env) (path name : Str) (rd : Bool) (es : List Node)
    (w w1 w2 : World) (e : Err)
    (hd : walkFn env path (Node.dir name rd es) false w = (Step.ok, w1))
    (hrd : rd = false)
    (h : walkEntries env path es w1 = (Step.fail e, w2)) :
    walkDir env path (Node.dir name rd es) w = (Step.fail e, w2) := by
  subst hrd
  simp only [walkDir, hd, Bool.false_eq_true, if_false, h]

theorem Execute_fail (env : Env) (root : Node) (w w1 : World) (e : Err)
    (h : walkDir env env.targetDir root w = (Step.fail e, w1)) :
    Execute env (some root) w = (some e, w1) := by
  simp only [Execute, h]

theorem walkEntries_ne_skipDir (env : Env) (path : Str) :
    ∀ (es : List Node) (w : World), (walkEntries env path es w).1 ≠ Step.skipDir
  | [], w => by simp [walkEntries]
  | d :: rest, w => by
    simp only [walkEntries]
    rcases walkDir env (Join path d.name) d w with ⟨s, w1⟩
    cases s with
    | ok => exact walkEntries_ne_skipDir env path rest w1
    | skipDir => simp
    | fail e => simp

theorem walkFn_file_ne_skipDir (env : Env) (path name : Str) (f : FileData) (b : Bool)
    (w : World) : (walkFn env path (Node.file name f) b w).1 ≠ Step.skipDir := by
  simp only [walkFn]
  rcases ctxErr env w with ⟨c, w1⟩
  cases c
  · simp only
    split
    · simp
    · split
      · simp
      · split
        · simp
        · split
          · simp
          · split
            · simp
            · rcases processFile env path f w1 with ⟨o, w2⟩
              cases o <;> simp
  · simp

theorem walkDir_ne_skipDir (env : Env) (path : Str) (d : Node) (w : World) :
    (walkDir env path d w).1 ≠ Step.skipDir := by
  cases d with
  | file name f =>
    simp only [walkDir]
    exact walkFn_file_ne_skipDir env path name f false w
  | dir name rd es =>
    simp only [walkDir]
    rcases walkFn env path (Node.dir name rd es) false w with ⟨s, w1⟩
    cases s with
    | ok =>
      simp only
      cases rd
      · simp only [Bool.false_eq_true, if_false]
        exact walkEntries_ne_skipDir env path es w1
      · simp only [if_true]
        rcases walkFn env path (Node.dir name true es) true w1 with ⟨s2, w2⟩
        cases s2 with
        | ok => exact walkEntries_ne_skipDir env path es w2
        | skipDir => simp
        | fail e => simp
    | skipDir => simp
    | fail e => simp

theorem walkEntries_append_fail (env : Env) (path : Str) (d : Node) (after : List Node)
    (e : Err) (wc : World) :
    ∀ (before : List Node) (wa wb : World),
    walkEntries env path before wa = (Step.ok, wb) →
    walkDir env (Join path d.name) d wb = (Step.fail e, wc) →
    walkEntries env path (before ++ d :: after) wa = (Step.fail e, wc)
  | [], wa, wb, h1, h2 => by
    simp only [walkEntries, Prod.mk.injEq, true_and] at h1
    subst h1
    exact walkEntries_fail env path d after wa wc e h2
  | b :: before, wa, wb, h1, h2 => by
    simp only [List.cons_append, walkEntries] at h1 ⊢
    have hne := walkDir_ne_skipDir env (Join path b.name) b wa
    rcases hb : walkDir env (Join path b.name) b wa with ⟨s, w1⟩
    rw [hb] at h1 hne
    cases s with
    | ok =>
      simp only at h1 ⊢
      exact walkEntries_append_fail env path d after e wc before w1 wb h1 h2
    | skipDir => exact absurd rfl hne
    | fail e2 => simp at h1

/-- C8: the size threshold is exclusive at 512000 bytes.  For a text file
handed to `processFile` (opened, context live, lookahead read): up to 512000
bytes the policy is not consulted and the entry is written; from 512001 bytes
the policy is consulted once with the path and the size, the entry is written
iff it answers true, nothing is written when it answers false, and its error
is returned with nothing written; that error ends the walk: the function of
`Execute` returns it, the entries after the file are not visited, and
`Execute` returns it. -/
theorem size_threshold (env : Env) (path : Str) (f : FileData) (w : World) (head : Bytes)
    (hopen : f.openErr = false)
    (hlive : (ctxErr env w).1 = false)
    (hhead : readHead f = some head)
    (htext : isBinary env.detect head = false) :
    DefaultThreshold = 512000 ∧
    (f.size ≤ 512000 →
      processFile env path f w =
        writeMarkdownEntry env path (env.GetLanguage path)
          (some [{ data := head, fail := none }, fileRest f head]) false (ctxErr env w).2 ∧
      (processFile env path f w).2.asked = w.asked ∧
      ∃ more, (processFile env path f w).2.writes =
        w.writes ++ bytesOf (entryHeader (normalizedPath env path) (env.GetLanguage path) false)
          :: more) ∧
    (512001 ≤ f.size →
      (processFile env path f w).2.asked = w.asked ++ [(path, f.size)] ∧
      (env.handler w.asked path f.size = Except.ok true →
        processFile env path f w =
          writeMarkdownEntry env path (env.GetLanguage path)
            (some [{ data := head, fail := none }, fileRest f head]) false
            { (ctxErr env w).2 with asked := w.asked ++ [(path, f.size)] } ∧
        ∃ more, (processFile env path f w).2.writes =
          w.writes ++
            bytesOf (entryHeader (normalizedPath env path) (env.GetLanguage path) false)
            :: more) ∧
      (env.handler w.asked path f.size = Except.ok false →
        (processFile env path f w).1 = none ∧
        (processFile env path f w).2.writes = w.writes) ∧
      (∀ e, env.handler w.asked path f.size = Except.error e →
        (processFile env path f w).1 = some e ∧
        (processFile env path f w).2.writes = w.writes)) ∧
    (∀ (e : Err) (w0 w2 : World) (name dir : Str) (rest : List Node),
      processFile env path f w = (some e, w2) →
      ctxErr env w0 = (false, w) → f.infoErr = false → f.symlink = false →
      env.Abs path ≠ some env.absOutputPath →
      ShouldIgnore env.glob env.matchers path false = false →
      walkFn env path (Node.file name f) false w0 = (Step.fail e, w2) ∧
      (path = Join dir name →
        walkEntries env dir (Node.file name f :: rest) w0 = (Step.fail e, w2)) ∧
      (path = env.targetDir →
        Execute env (some (Node.file name f)) w0 = (some e, w2))) ∧
    (∀ (e : Err) (wa wb wc : World) (dir : Str) (d : Node) (before after : List Node),
      walkEntries env dir before wa = (Step.ok, wb) →
      walkDir env (Join dir d.name) d wb = (Step.fail e, wc) →
      walkEntries env dir (before ++ d :: after) wa = (Step.fail e, wc)) ∧
    (∀ (e : Err) (wa wb wc : World) (dir name : Str) (entries : List Node),
      walkFn env dir (Node.dir name false entries) false wa = (Step.ok, wb) →
      walkEntries env dir entries wb = (Step.fail e, wc) →
      walkDir env dir (Node.dir name false entries) wa = (Step.fail e, wc)) ∧
    (∀ (e : Err) (wa wc : World) (root : Node),
      walkDir env env.targetDir root wa = (Step.fail e, wc) →
      Execute env (some root) wa = (some e, wc)) := by
  have hthr : DefaultThreshold = 512000 := by decide
  rcases hcx : ctxErr env w with ⟨c, w1⟩
  rw [hcx] at hlive
  simp only at hlive
  subst hlive
  have hw1 := ctxErr_writes env w
  rw [hcx] at hw1
  simp only at hw1
  refine ⟨hthr, ?_, ?_, ?_, ?_, ?_, ?_⟩
  · intro hsmall
    have hns : ¬ f.size > DefaultThreshold := by omega
    have hpf : processFile env path f w =
        writeMarkdownEntry env path (env.GetLanguage path)
          (some [{ data := head, fail := none }, fileRest f head]) false w1 := by
      simp only [processFile, hopen, hcx, hhead, htext, hns, Bool.false_eq_true, if_false]
    obtain ⟨⟨more, hm⟩, ha⟩ := writeMarkdownEntry_appends env path (env.GetLanguage path)
      (some [{ data := head, fail := none }, fileRest f head]) false w1
    refine ⟨hpf, ?_, ⟨more, ?_⟩⟩
    · rw [hpf, ha, hw1.2]
    · rw [hpf, hm, hw1.1]
  · intro hbig
    have hb : f.size > DefaultThreshold := by omega
    have hpf : processFile env path f w =
        match env.handler w1.asked path f.size with
        | Except.error e => (some e, { w1 with asked := w1.asked ++ [(path, f.size)] })
        | Except.ok false => (none, { w1 with asked := w1.asked ++ [(path, f.size)] })
        | Except.ok true =>
          writeMarkdownEntry env path (env.GetLanguage path)
            (some [{ data := head, fail := none }, fileRest f head]) false
            { w1 with asked := w1.asked ++ [(path, f.size)] } := by
      simp only [processFile, hopen, hcx, hhead, htext, hb, Bool.false_eq_true, if_false,
        if_true]
    rw [hw1.2] at hpf
    obtain ⟨⟨more, hm⟩, ha⟩ := writeMarkdownEntry_appends env path (env.GetLanguage path)
      (some [{ data := head, fail := none }, fileRest f head]) false
      { w1 with asked := w.asked ++ [(path, f.size)] }
    refine ⟨?_, ?_, ?_, ?_⟩
    · rw [hpf]
      rcases hh : env.handler w.asked path f.size with e | b
      · rfl
      · cases b
        · rfl
        · exact ha
    · intro hh
      rw [hh] at hpf
      refine ⟨hpf, ⟨more, ?_⟩⟩
      rw [hpf, hm, hw1.1]
    · intro hh
      rw [hh] at hpf
      rw [hpf]
      exact ⟨rfl, hw1.1⟩
    · intro e hh
      rw [hh] at hpf
      rw [hpf]
      exact ⟨rfl, hw1.1⟩
  · intro e w0 w2 name dir rest hpf hc0 hinfo hsym habs hign
    have hfn : walkFn env path (Node.file name f) false w0 = (Step.fail e, w2) := by
      simp only [walkFn, hc0, hinfo, hsym, habs, hign, hpf, Bool.false_eq_true, if_false]
    refine ⟨hfn, ?_, ?_⟩
    · intro hp
      apply walkEntries_fail
      simp only [Node.name, walkDir, ← hp, hfn]
    · intro hp
      apply Execute_fail
      simp only [walkDir, ← hp, hfn]
  · intro e wa wb wc dir d before after h1 h2
    exact walkEntries_append_fail env dir d after e wc before wa wb h1 h2
  · intro e wa wb wc dir name entries h1 h2
    exact walkDir_fail env dir name false entries wa wb wc e h1 rfl h2
  · intro e wa wc root h
    exact Execute_fail env root wa wc e h

/-- A file of `hello` is written without the policy being consulted; a text
file reported as 512001 bytes is put to the policy, which declines here, and
nothing is written. -/
theorem size_threshold_witness :
    (exampleFile (bytesOf "hello".toList)).size ≤ 512000 ∧
    (processFile (exampleEnv []) "a.txt".toList (exampleFile (bytesOf "hello".toList))
      World.init).2.asked = [] ∧
    512001 ≤ (exampleLargeFile (bytesOf "hello".toList)).size ∧
    (processFile (exampleEnv []) "a.txt".toList (exampleLargeFile (bytesOf "hello".toList))
      World.init).2.asked = [("a.txt".toList, 512001)] ∧
    (processFile (exampleEnv []) "a.txt".toList (exampleLargeFile (bytesOf "hello".toList))
      World.init).2.writes = [] :=
  ⟨by decide,
   ((size_threshold (exampleEnv []) "a.txt".toList (exampleFile (bytesOf "hello".toList))
      World.init (bytesOf "hello".toList) rfl rfl (by decide) (by decide)).2.1
      (by decide)).2.1,
   by decide,
   ((size_threshold (exampleEnv []) "a.txt".toList (exampleLargeFile (bytesOf "hello".toList))
      World.init (bytesOf "hello".toList) rfl rfl (by decide) (by decide)).2.2.1
      (by decide)).1,
   ((((size_threshold (exampleEnv []) "a.txt".toList
      (exampleLargeFile (bytesOf "hello".toList))
      World.init (bytesOf "hello".toList) rfl rfl (by decide) (by decide)).2.2.1
      (by decide)).2.2.1) rfl).2⟩


/-! ## Binary classification -/

theorem readHead_take (f : FileData) (head : Bytes) (h : readHead f = some head) :
    head = f.readable.take 512 ∧ head.length ≤ 512 := by
  unfold readHead at h
  by_cases h1 : 512 ≤ f.readable.length
  · simp only [h1, if_true, Option.some.injEq] at h
    subst h
    exact ⟨rfl, by simp⟩
  · simp only [h1, if_false] at h
    by_cases h2 : f.readErr.isSome = true
    · simp [h2] at h
    · simp only [h2, Bool.false_eq_true, if_false, Option.some.injEq] at h
      subst h
      have hl : f.readable.length ≤ 512 := by omega
      exact ⟨(List.take_of_length_le hl).symm, hl⟩

/-- C9: binary classification follows the lookahead rule: a lookahead with a
NUL byte is binary; a non-empty one without NUL is binary iff its sniffed type
is neither a `text/` type nor `application/json` nor `application/xml`; the
empty lookahead is text.  The lookahead is the first 512 bytes at most, and a
file classified binary is written as one chunk, the header with the line
`(Binary file skipped)`, with no fence and no content. -/
theorem isBinary_rule (detect : Bytes → Str) (d : Bytes)
    (env : Env) (path : Str) (f : FileData) (w : World) (head : Bytes) :
    (0 ∈ d → isBinary detect d = true) ∧
    (0 ∉ d → d ≠ [] →
      (isBinary detect d = true ↔
        HasPrefix (detect d) "text/".toList = false ∧
        detect d ≠ "application/json".toList ∧
        detect d ≠ "application/xml".toList)) ∧
    isBinary detect [] = false ∧
    (f.openErr = false → (ctxErr env w).1 = false → readHead f = some head →
      head = f.readable.take 512 ∧
      (isBinary env.detect head = true →
        (processFile env path f w).2.writes =
          w.writes ++ [bytesOf ("\n## File: ".toList ++ normalizedPath env path ++
            "\n\n(Binary file skipped)\n".toList)] ∧
        (processFile env path f w).2.asked = w.asked)) := by
  refine ⟨?_, ?_, by simp [isBinary], ?_⟩
  · intro h0
    have hne : ¬ d.length = 0 := by
      intro hl
      rw [List.length_eq_zero] at hl
      subst hl
      simp at h0
    simp [isBinary, hne, h0]
  · intro h0 hne
    have hl : ¬ d.length = 0 := by
      intro hl
      exact hne (List.length_eq_zero.1 hl)
    simp only [isBinary, hl, h0, if_false, Bool.and_eq_true, Bool.not_eq_true',
      decide_eq_true_eq, and_assoc]
  · intro hopen hlive hhead
    refine ⟨(readHead_take f head hhead).1, ?_⟩
    intro hbin
    rcases hcx : ctxErr env w with ⟨c, w1⟩
    rw [hcx] at hlive
    simp only at hlive
    subst hlive
    have hw1 := ctxErr_writes env w
    rw [hcx] at hw1
    simp only at hw1
    have hpf : processFile env path f w = writeMarkdownEntry env path [] none true w1 := by
      simp only [processFile, hopen, hcx, hhead, hbin, Bool.false_eq_true, if_false, if_true]
    rw [hpf]
    rcases hsk : env.sink w1.writes
      (bytesOf (entryHeader (normalizedPath env path) [] true)) with ⟨n1, e1⟩
    have hh : entryHeader (normalizedPath env path) [] true =
        "\n## File: ".toList ++ normalizedPath env path ++
          "\n\n(Binary file skipped)\n".toList := by
      simp [entryHeader]
    cases e1 with
    | some e =>
      simp only [writeMarkdownEntry, outputWrite, hsk]
      rw [hw1.1, hw1.2, hh]
      exact ⟨rfl, rfl⟩
    | none =>
      simp only [writeMarkdownEntry, outputWrite, hsk]
      rw [hw1.1, hw1.2, hh]
      exact ⟨rfl, rfl⟩

/-- A file holding `a`, NUL, `b` is classified binary and written as its
header with the placeholder line only. -/
theorem isBinary_rule_witness :
    (0 : Nat) ∈ ([97, 0, 98] : Bytes) ∧
    isBinary (exampleEnv []).detect [97, 0, 98] = true ∧
    (0 : Nat) ∉ bytesOf "hello".toList ∧
    isBinary (exampleEnv []).detect (bytesOf "hello".toList) = false ∧
    (processFile (exampleEnv []) "z.bin".toList (exampleFile [97, 0, 98]) World.init).2.writes =
      [bytesOf "\n## File: z.bin\n\n(Binary file skipped)\n".toList] :=
  ⟨by decide,
   (isBinary_rule (exampleEnv []).detect [97, 0, 98] (exampleEnv []) "z.bin".toList
      (exampleFile [97, 0, 98]) World.init [97, 0, 98]).1 (by decide),
   by decide,
   by
     have h := (isBinary_rule (exampleEnv []).detect (bytesOf "hello".toList) (exampleEnv [])
       "z.bin".toList (exampleFile [97, 0, 98]) World.init [97, 0, 98]).2.1
       (by decide) (by decide)
     cases hb : isBinary (exampleEnv []).detect (bytesOf "hello".toList) with
     | false => rfl
     | true => exact absurd (h.1 hb).1 (by decide),
   ((isBinary_rule (exampleEnv []).detect [97, 0, 98] (exampleEnv []) "z.bin".toList
      (exampleFile [97, 0, 98]) World.init [97, 0, 98]).2.2.2 rfl rfl (by decide)).2
      (by decide) |>.1⟩

/-! ## Configuration -/

/-- C10: setting both large-file shortcuts is a startup error: when the
arguments parse, `Load` returns an error iff both `--force-large` and
`--skip-large` are set, and otherwise a Config whose `ForceLarge` and
`SkipLarge` are the flags given; no Config with both true is ever returned. -/
theorem Load_large_flags (parse : Flags → List Str → Except Str Flags) (args : List Str)
    (fl : Flags) (hparse : parse (flagDefaults DefaultConfig) args = Except.ok fl) :
    ((∃ e, Load parse args = Except.error e) ↔ fl.forceLarge = true ∧ fl.skipLarge = true) ∧
    (fl.forceLarge = true ∧ fl.skipLarge = true →
      Load parse args = Except.error LoadErr.bothLarge) ∧
    (¬ (fl.forceLarge = true ∧ fl.skipLarge = true) →
      ∃ cfg, Load parse args = Except.ok cfg ∧
        cfg.ForceLarge = fl.forceLarge ∧ cfg.SkipLarge = fl.skipLarge) ∧
    (∀ cfg, Load parse args = Except.ok cfg →
      ¬ (cfg.ForceLarge = true ∧ cfg.SkipLarge = true)) := by
  by_cases hb : fl.forceLarge = true ∧ fl.skipLarge = true
  · have hl : Load parse args = Except.error LoadErr.bothLarge := by
      simp only [Load, hparse, hb, and_self, if_true]
    refine ⟨⟨fun _ => hb, fun _ => ⟨_, hl⟩⟩, fun _ => hl, fun h => absurd hb h, ?_⟩
    intro cfg hc
    rw [hl] at hc
    cases hc
  · have hl : Load parse args = Except.ok
        { TargetDir := fl.d, OutputFile := fl.o, CopyToClipboard := fl.c,
          IgnorePatterns := fl.patterns, IgnoreFiles := fl.ignores, LanguageMap := fl.m,
          ForceLarge := fl.forceLarge, SkipLarge := fl.skipLarge,
          ShowVersion := fl.version } := by
      simp only [Load, hparse, hb, if_false]
    refine ⟨⟨?_, fun h => absurd h hb⟩, fun h => absurd h hb, fun _ => ⟨_, hl, rfl, rfl⟩, ?_⟩
    · rintro ⟨e, he⟩
      rw [hl] at he
      cases he
    · intro cfg hc
      rw [hl] at hc
      cases hc
      exact hb

/-- With both flags `Load` fails; with `--skip-large` alone it returns a
Config with `SkipLarge` set and `ForceLarge` unset. -/
theorem Load_large_flags_witness :
    Load exampleParse ["--force-large".toList, "--skip-large".toList] =
      Except.error LoadErr.bothLarge ∧
    ∃ cfg, Load exampleParse ["--skip-large".toList] = Except.ok cfg ∧
      cfg.ForceLarge = false ∧ cfg.SkipLarge = true :=
  ⟨(Load_large_flags exampleParse ["--force-large".toList, "--skip-large".toList]
      { flagDefaults DefaultConfig with forceLarge := true, skipLarge := true }
      rfl).2.1 (by decide),
   (Load_large_flags exampleParse ["--skip-large".toList]
      { flagDefaults DefaultConfig with forceLarge := false, skipLarge := true }
      rfl).2.2.1 (by decide)⟩


/-! ## The fan-out of writes -/

theorem offered_append (p : Bytes) : ∀ (pre post : List Strategy) (clock : Nat),
    offered clock p (pre ++ post) = offered clock p pre ++ offered (clock + pre.length) p post
  | [], post, clock => by simp [offered]
  | s :: pre, post, clock => by
    have hc : clock + 1 + pre.length = clock + (s :: pre).length := by
      simp only [List.length_cons]; omega
    rw [List.cons_append, offered, offered, offered_append p pre post (clock + 1), hc,
      List.cons_append]

theorem MultiStrategy_Write_all (p : Bytes) : ∀ (ds : List Strategy) (clock : Nat),
    (∀ x ∈ ds, x.accepts p = true) →
    MultiStrategy.Write ds clock p = ((p.length, none), offered clock p ds, clock + ds.length)
  | [], clock, _ => by simp [MultiStrategy.Write, offered]
  | s :: rest, clock, h => by
    have hs : s.answer s.received p = (p.length, none) := by
      have := h s (List.mem_cons_self _ _)
      simpa [Strategy.accepts] using this
    have ih := MultiStrategy_Write_all p rest (clock + 1)
      (fun x hx => h x (List.mem_cons_of_mem _ hx))
    have hc : clock + 1 + rest.length = clock + (rest.length + 1) := by omega
    simp only [MultiStrategy.Write, Strategy.Write, hs, ne_eq, not_true_eq_false, if_false, ih,
      offered, List.length_cons, hc]

theorem MultiStrategy_Write_first_failure (p : Bytes) (s : Strategy) (post : List Strategy)
    (hs : s.accepts p = false) : ∀ (pre : List Strategy) (clock : Nat),
    (∀ x ∈ pre, x.accepts p = true) →
    MultiStrategy.Write (pre ++ s :: post) clock p =
      (((s.answer s.received p).1, some (failureOf (s.answer s.received p))),
        offered clock p (pre ++ [s]) ++ post, clock + pre.length + 1)
  | [], clock, _ => by
    simp only [Strategy.accepts, decide_eq_false_iff_not] at hs
    rcases ha : s.answer s.received p with ⟨n, e⟩
    rw [ha] at hs
    cases e with
    | some e =>
      simp [MultiStrategy.Write, Strategy.Write, ha, failureOf, offered]
    | none =>
      have hn : n ≠ p.length := by
        intro h
        exact hs (by rw [h])
      simp [MultiStrategy.Write, Strategy.Write, ha, failureOf, offered, hn]
  | x :: pre, clock, h => by
    have hx : x.answer x.received p = (p.length, none) := by
      have := h x (List.mem_cons_self _ _)
      simpa [Strategy.accepts] using this
    have ih := MultiStrategy_Write_first_failure p s post hs pre (clock + 1)
      (fun y hy => h y (List.mem_cons_of_mem _ hy))
    have hc : clock + 1 + pre.length + 1 = clock + (x :: pre).length + 1 := by
      simp only [List.length_cons]; omega
    rw [List.cons_append, MultiStrategy.Write]
    simp only [Strategy.Write, hx, ne_eq, not_true_eq_false, if_false]
    rw [ih, hc, List.cons_append, offered, List.cons_append]

theorem MultiStrategy_Write_ok_iff (p : Bytes) : ∀ (ds : List Strategy) (clock : Nat),
    (MultiStrategy.Write ds clock p).1 = (p.length, none) ↔ ∀ x ∈ ds, x.accepts p = true
  | [], clock => by simp [MultiStrategy.Write]
  | s :: rest, clock => by
    have ih := MultiStrategy_Write_ok_iff p rest (clock + 1)
    rcases ha : s.answer s.received p with ⟨n, e⟩
    cases e with
    | some e =>
      simp [MultiStrategy.Write, Strategy.Write, ha, Strategy.accepts]
    | none =>
      by_cases hn : n = p.length
      · subst hn
        simp only [MultiStrategy.Write, Strategy.Write, ha, ne_eq, not_true_eq_false, if_false,
          List.mem_cons, forall_eq_or_imp, Strategy.accepts, decide_True, true_and]
        exact ih
      · simp [MultiStrategy.Write, Strategy.Write, ha, Strategy.accepts, hn]

/-- C11: `MultiStrategy.Write` fans out in order and aborts on the first
failure: when the destinations before `s` accept `p` and `s` does not, the
destinations up to `s` are offered `p` one after the other in list order, those
after `s` receive nothing, and `Write` returns the count of `s` with its error,
`io.ErrShortWrite` for a short write; when all accept, all are offered `p` in
order; and `Write` returns `(len(p), nil)` iff every destination accepts all of
`p` without error. -/
theorem MultiStrategy_Write_fan_out (ds pre post : List Strategy) (s : Strategy)
    (clock : Nat) (p : Bytes) :
    ((∀ x ∈ pre, x.accepts p = true) → s.accepts p = false →
      MultiStrategy.Write (pre ++ s :: post) clock p =
        (((s.answer s.received p).1, some (failureOf (s.answer s.received p))),
          offered clock p (pre ++ [s]) ++ post, clock + pre.length + 1) ∧
      ((s.answer s.received p).2 = none → failureOf (s.answer s.received p) = Err.shortWrite) ∧
      (∀ e, (s.answer s.received p).2 = some e → failureOf (s.answer s.received p) = e)) ∧
    ((∀ x ∈ ds, x.accepts p = true) →
      MultiStrategy.Write ds clock p =
        ((p.length, none), offered clock p ds, clock + ds.length)) ∧
    ((MultiStrategy.Write ds clock p).1 = (p.length, none) ↔
      ∀ x ∈ ds, x.accepts p = true) := by
  refine ⟨?_, MultiStrategy_Write_all p ds clock, MultiStrategy_Write_ok_iff p ds clock⟩
  intro hpre hs
  refine ⟨MultiStrategy_Write_first_failure p s post hs pre clock hpre, ?_, ?_⟩
  · intro h
    simp [failureOf, h]
  · intro e h
    simp [failureOf, h]

/-- With an accepting destination, then one that takes 2 of 3 bytes, then a
third, `Write` returns 2 and `io.ErrShortWrite`; the first two have received the
chunk at times 0 and 1 and the third nothing. -/
theorem MultiStrategy_Write_fan_out_witness :
    acceptingStrategy.accepts [1, 2, 3] = true ∧
    (shortStrategy 2).accepts [1, 2, 3] = false ∧
    (MultiStrategy.Write [acceptingStrategy, shortStrategy 2, acceptingStrategy] 0 [1, 2, 3]).1 =
      (2, some Err.shortWrite) ∧
    (MultiStrategy.Write [acceptingStrategy, shortStrategy 2, acceptingStrategy] 0
      [1, 2, 3]).2.1.map (fun d => d.received) = [[(0, [1, 2, 3])], [(1, [1, 2, 3])], []] ∧
    (MultiStrategy.Write [acceptingStrategy, acceptingStrategy] 0 [1, 2, 3]).1 = (3, none) :=
  ⟨by decide, by decide,
   congrArg Prod.fst
     ((MultiStrategy_Write_fan_out [] [acceptingStrategy] [acceptingStrategy] (shortStrategy 2)
      0 [1, 2, 3]).1 (by decide) (by decide)).1,
   congrArg (fun r => r.2.1.map (fun d => d.received))
     ((MultiStrategy_Write_fan_out [] [acceptingStrategy] [acceptingStrategy] (shortStrategy 2)
      0 [1, 2, 3]).1 (by decide) (by decide)).1,
   congrArg Prod.fst
     ((MultiStrategy_Write_fan_out [acceptingStrategy, acceptingStrategy] [] []
      acceptingStrategy 0 [1, 2, 3]).2.1 (by decide))⟩


/-! ## The language mapper -/

theorem lookup_filter_ne (k e : Str) : ∀ (m : LangTable),
    (m.filter (fun x => decide (x.1 ≠ k))).lookup e = if e = k then none else m.lookup e
  | [] => by simp [List.lookup]
  | (a, v) :: m => by
    have ih := lookup_filter_ne k e m
    by_cases hak : a = k
    · subst hak
      simp only [List.filter_cons, ne_eq, not_true_eq_false, decide_False, Bool.false_eq_true,
        if_false, ih]
      by_cases hea : e = a
      · simp [hea]
      · have hb : (e == a) = false := by simpa using hea
        simp [hea, List.lookup, hb]
    · simp only [List.filter_cons, ne_eq, hak, not_false_eq_true, decide_True, if_true]
      by_cases hea : e = a
      · subst hea
        simp [List.lookup, hak]
      · have hb : (e == a) = false := by simpa using hea
        simp only [List.lookup, hb, ih]

theorem lookup_set (m : LangTable) (k e : Str) (v : List Str) :
    (m.set k v).lookup e = if e = k then some v else m.lookup e := by
  unfold LangTable.set
  by_cases h : e = k
  · subst h
    simp [List.lookup]
  · have hb : (e == k) = false := by simpa using h
    simp only [List.lookup, hb, lookup_filter_ne, h, if_false]

theorem lookup_of_not_mem (e : Str) : ∀ (m : LangTable), e ∉ m.map Prod.fst →
    m.lookup e = none
  | [], _ => rfl
  | (a, v) :: m, h => by
    simp only [List.map_cons, List.mem_cons, not_or] at h
    have hb : (e == a) = false := by simpa using h.1
    simp only [List.lookup, hb]
    exact lookup_of_not_mem e m h.2

theorem lookup_merge (e : Str) : ∀ (custom extMap : LangTable),
    (custom.map Prod.fst).Nodup →
    (custom.foldl (fun extMap kv => extMap.set kv.1 kv.2) extMap).lookup e =
      match custom.lookup e with
      | some langs => some langs
      | none => extMap.lookup e
  | [], extMap, _ => by simp [List.lookup]
  | (k, v) :: rest, extMap, h => by
    simp only [List.map_cons, List.nodup_cons] at h
    rw [List.foldl_cons, lookup_merge e rest (extMap.set k v) h.2, lookup_set]
    by_cases hek : e = k
    · subst hek
      rw [lookup_of_not_mem e rest h.1]
      simp [List.lookup]
    · have hb : (e == k) = false := by simpa using hek
      simp only [hek, if_false, List.lookup, hb]

theorem firstName_eq (langs : List Str) :
    (if langs.length > 0 then langs.headD [] else []) = firstName langs := by
  cases langs <;> simp [firstName]

theorem Ext_of_suffix (stem rest : Str) (hd : '.' ∉ rest) (hs : '/' ∉ rest) :
    Ext (stem ++ '.' :: rest) = '.' :: rest := by
  have hrev : ∀ x ∈ rest.reverse, (x != Separator) = true := by
    intro x hx
    rw [List.mem_reverse] at hx
    simp only [Separator, bne_iff_ne, ne_eq]
    rintro rfl
    exact hs hx
  have hrevd : ∀ x ∈ rest.reverse, (x != '.') = true := by
    intro x hx
    rw [List.mem_reverse] at hx
    simp only [bne_iff_ne, ne_eq]
    rintro rfl
    exact hd hx
  have hmem : '.' ∈ lastElement (stem ++ '.' :: rest) := by
    unfold lastElement
    rw [List.mem_reverse, List.reverse_append, List.reverse_cons, List.append_assoc,
      List.takeWhile_append_of_pos hrev]
    apply List.mem_append_right
    simp [List.takeWhile_cons, Separator]
  have htw : (lastElement (stem ++ '.' :: rest)).reverse.takeWhile (fun c => c != '.') =
      rest.reverse := by
    unfold lastElement
    rw [List.reverse_reverse, List.reverse_append, List.reverse_cons, List.append_assoc,
      List.takeWhile_append_of_pos hrev, List.takeWhile_append_of_pos hrevd]
    simp [List.takeWhile_cons, Separator]
  unfold Ext
  simp only [hmem, if_true, htw, List.reverse_reverse]

/-- C12: language lookup is a first-element lookup on the lower-cased
extension of a table merged key by key: with a default table and a custom
table (a Go map, its keys distinct), `NewMapper` succeeds and `GetLanguage` is
the first name of the custom entry of the lower-cased extension when the custom
table has that key, otherwise the first name of the default entry, otherwise
empty, and empty when the selected list is empty; the custom entry replaces
the default one entirely; without a custom path the default table alone is
used; paths whose extensions differ in letter case only get the same result. -/
theorem GetLanguage_merged_lookup (lower : Char → Char) (defaults custom : LangTable)
    (customMapPath path : Str)
    (hkeys : (custom.map Prod.fst).Nodup) (hpath : customMapPath ≠ []) :
    (∃ m, NewMapper (some defaults) customMapPath (some custom) = some m ∧
      (∀ p, m.GetLanguage lower p = specLanguage defaults custom (ToLower lower (Ext p))) ∧
      (∀ p langs, custom.lookup (ToLower lower (Ext p)) = some langs →
        m.GetLanguage lower p = firstName langs) ∧
      (∀ stem r1 r2 : Str, '.' ∉ r1 → '/' ∉ r1 → '.' ∉ r2 → '/' ∉ r2 →
        r1.map lower = r2.map lower →
        m.GetLanguage lower (stem ++ '.' :: r1) = m.GetLanguage lower (stem ++ '.' :: r2))) ∧
    (∃ m, NewMapper (some defaults) [] none = some m ∧
      m.GetLanguage lower path = specLanguage defaults [] (ToLower lower (Ext path))) ∧
    firstName [] = [] ∧
    (∀ stem rest : Str, '.' ∉ rest → '/' ∉ rest → Ext (stem ++ '.' :: rest) = '.' :: rest) := by
  have hget : ∀ p, Mapper.GetLanguage lower
      { extMap := custom.foldl (fun extMap kv => extMap.set kv.1 kv.2) defaults } p =
      specLanguage defaults custom (ToLower lower (Ext p)) := by
    intro p
    simp only [Mapper.GetLanguage, LangTable.get, firstName_eq, specLanguage,
      lookup_merge _ custom defaults hkeys]
    cases custom.lookup (ToLower lower (Ext p)) with
    | some langs => rfl
    | none => rfl
  refine ⟨⟨_, ?_, hget, ?_, ?_⟩, ⟨{ extMap := defaults }, ?_, ?_⟩, rfl, Ext_of_suffix⟩
  · simp only [NewMapper, ne_eq, hpath, not_false_eq_true, if_true]
  · intro p langs hl
    rw [hget, specLanguage, hl]
  · intro stem r1 r2 d1 s1 d2 s2 hl
    rw [hget, hget, Ext_of_suffix stem r1 d1 s1, Ext_of_suffix stem r2 d2 s2]
    simp only [ToLower, List.map_cons, hl]
  · simp [NewMapper]
  · simp only [Mapper.GetLanguage, LangTable.get, firstName_eq, specLanguage, List.lookup]

/-- With the default entries `.go`, `.h`, `.md` and the custom entries `.h`
and `.md` (empty): `main.GO` is `Go`, `x.h` is the custom `Objective-C`, `x.md`
is empty although the default table names Markdown, and `x.zz` is empty. -/
theorem GetLanguage_merged_lookup_witness :
    (exampleCustom.map Prod.fst).Nodup ∧
    ∃ m, NewMapper (some exampleDefaults) "map.json".toList (some exampleCustom) = some m ∧
      m.GetLanguage Char.toLower "src/main.GO".toList = "Go".toList ∧
      m.GetLanguage Char.toLower "src/main.go".toList = "Go".toList ∧
      m.GetLanguage Char.toLower "x.h".toList = "Objective-C".toList ∧
      m.GetLanguage Char.toLower "x.md".toList = [] ∧
      m.GetLanguage Char.toLower "x.zz".toList = [] := by
  have hn : (exampleCustom.map Prod.fst).Nodup := by decide
  obtain ⟨m, hm, hspec, _, _⟩ :=
    (GetLanguage_merged_lookup Char.toLower exampleDefaults exampleCustom "map.json".toList []
      hn (by decide)).1
  refine ⟨hn, m, hm, ?_, ?_, ?_, ?_, ?_⟩
  · rw [hspec]; decide
  · rw [hspec]; decide
  · rw [hspec]; decide
  · rw [hspec]; decide
  · rw [hspec]; decide


/-! ## The paths the Ignore Engine is consulted with -/

theorem copyCancellable_matchers (env : Env) (ms : List GitIgnoreMatcher) :
    ∀ (k : Nat) (src : List SrcReader) (w : World), srcSize src ≤ k →
    copyCancellable { env with matchers := ms } src w = copyCancellable env src w := by
  intro k
  induction k with
  | zero =>
    intro src w hk
    have hsrc : src = [] := by
      cases src with
      | nil => rfl
      | cons r rest => simp [srcSize] at hk
    subst hsrc
    rw [copyCancellable_unfold, copyCancellable_unfold env]
    rfl
  | succ k ih =>
    intro src w hk
    rw [copyCancellable_unfold, copyCancellable_unfold env]
    have hctx : ctxErr { env with matchers := ms } w = ctxErr env w := rfl
    rw [hctx]
    rcases ctxErr env w with ⟨c, w1⟩
    cases c
    · simp only
      have hcw : copyWrite { env with matchers := ms } (multiRead src copyBufSize).1 w1 =
          copyWrite env (multiRead src copyBufSize).1 w1 := rfl
      rw [hcw]
      rcases copyWrite env (multiRead src copyBufSize).1 w1 with ⟨o, w2⟩
      cases o with
      | some e => rfl
      | none =>
        simp only
        rcases her : (multiRead src copyBufSize).2.1 with _ | er
        · simp only
          have hlt := multiRead_decreases src her
          exact ih _ w2 (by omega)
        · cases er <;> rfl
    · rfl

theorem writeMarkdownEntry_matchers (env : Env) (ms : List GitIgnoreMatcher) (path lang : Str)
    (r : Option (List SrcReader)) (b : Bool) (w : World) :
    writeMarkdownEntry { env with matchers := ms } path lang r b w =
      writeMarkdownEntry env path lang r b w := by
  unfold writeMarkdownEntry
  have h1 : normalizedPath { env with matchers := ms } path = normalizedPath env path := rfl
  have h2 : ∀ c v, outputWrite { env with matchers := ms } c v = outputWrite env c v :=
    fun _ _ => rfl
  have h3 : ∀ src v, copyCancellable { env with matchers := ms } src v =
      copyCancellable env src v := fun src v => copyCancellable_matchers env ms _ src v (le_refl _)
  simp only [h1, h2, h3]

theorem processFile_matchers (env : Env) (ms : List GitIgnoreMatcher) (path : Str)
    (f : FileData) (w : World) :
    processFile { env with matchers := ms } path f w = processFile env path f w := by
  unfold processFile
  have h1 : ∀ v, ctxErr { env with matchers := ms } v = ctxErr env v := fun _ => rfl
  simp only [h1, writeMarkdownEntry_matchers]

theorem walkFn_matchers (env : Env) (ms : List GitIgnoreMatcher) (path : Str) (d : Node)
    (walkErr : Bool) (w : World)
    (h : ∀ pb ∈ walkPaths path d,
      ShouldIgnore env.glob ms pb.1 pb.2 = ShouldIgnore env.glob env.matchers pb.1 pb.2) :
    walkFn { env with matchers := ms } path d walkErr w = walkFn env path d walkErr w := by
  have h1 : ctxErr { env with matchers := ms } w = ctxErr env w := rfl
  cases d with
  | file name f =>
    have hp := h (path, false) (by simp [walkPaths])
    simp only at hp
    simp only [walkFn, h1, hp, processFile_matchers]
  | dir name rd es =>
    have hp := h (path, true) (by simp [walkPaths])
    simp only at hp
    simp only [walkFn, h1, hp]

mutual
theorem walkDir_matchers (env : Env) (ms : List GitIgnoreMatcher) :
    ∀ (path : Str) (d : Node) (w : World),
    (∀ pb ∈ walkPaths path d,
      ShouldIgnore env.glob ms pb.1 pb.2 = ShouldIgnore env.glob env.matchers pb.1 pb.2) →
    walkDir { env with matchers := ms } path d w = walkDir env path d w
  | path, Node.file name f, w, h => by
    simp only [walkDir]
    exact walkFn_matchers env ms path (Node.file name f) false w h
  | path, Node.dir name rd es, w, h => by
    have hes : ∀ pb ∈ walkPathsEntries path es,
        ShouldIgnore env.glob ms pb.1 pb.2 = ShouldIgnore env.glob env.matchers pb.1 pb.2 := by
      intro pb hpb
      exact h pb (by simp [walkPaths, hpb])
    have hw := fun b v => walkFn_matchers env ms path (Node.dir name rd es) b v h
    simp only [walkDir, hw]
    rcases walkFn env path (Node.dir name rd es) false w with ⟨s, w1⟩
    cases s with
    | ok =>
      simp only
      cases rd
      · simp only [Bool.false_eq_true, if_false]
        exact walkEntries_matchers env ms path es w1 hes
      · simp only [if_true]
        rcases walkFn env path (Node.dir name true es) true w1 with ⟨s2, w2⟩
        cases s2 with
        | ok => exact walkEntries_matchers env ms path es w2 hes
        | skipDir => rfl
        | fail e => rfl
    | skipDir => rfl
    | fail e => rfl
theorem walkEntries_matchers (env : Env) (ms : List GitIgnoreMatcher) :
    ∀ (path : Str) (es : List Node) (w : World),
    (∀ pb ∈ walkPathsEntries path es,
      ShouldIgnore env.glob ms pb.1 pb.2 = ShouldIgnore env.glob env.matchers pb.1 pb.2) →
    walkEntries { env with matchers := ms } path es w = walkEntries env path es w
  | path, [], w, _ => by simp [walkEntries]
  | path, d :: rest, w, h => by
    have hd : ∀ pb ∈ walkPaths (Join path d.name) d,
        ShouldIgnore env.glob ms pb.1 pb.2 = ShouldIgnore env.glob env.matchers pb.1 pb.2 := by
      intro pb hpb
      exact h pb (by simp [walkPathsEntries, hpb])
    have hr : ∀ pb ∈ walkPathsEntries path rest,
        ShouldIgnore env.glob ms pb.1 pb.2 = ShouldIgnore env.glob env.matchers pb.1 pb.2 := by
      intro pb hpb
      exact h pb (by simp [walkPathsEntries, hpb])
    simp only [walkEntries]
    rw [walkDir_matchers env ms (Join path d.name) d w hd]
    rcases walkDir env (Join path d.name) d w with ⟨s, w1⟩
    cases s with
    | ok => exact walkEntries_matchers env ms path rest w1 hr
    | skipDir => rfl
    | fail e => rfl
end

theorem processFile_emits (env : Env) (path : Str) (f : FileData) (w : World) (head : Bytes)
    (hopen : f.openErr = false)
    (hlive : env.cancelAt = none)
    (hhead : readHead f = some head)
    (htext : isBinary env.detect head = false)
    (hsmall : f.size ≤ DefaultThreshold) :
    ∃ more, (processFile env path f w).2.writes =
      w.writes ++ bytesOf (entryHeader (normalizedPath env path) (env.GetLanguage path) false)
        :: more := by
  have hns : ¬ f.size > DefaultThreshold := by omega
  have hpf : processFile env path f w =
      writeMarkdownEntry env path (env.GetLanguage path)
        (some [{ data := head, fail := none }, fileRest f head]) false
        { w with polls := w.polls + 1 } := by
    simp only [processFile, hopen, ctxErr_live env w hlive, hhead, htext, hns,
      Bool.false_eq_true, if_false]
  obtain ⟨⟨more, hm⟩, _⟩ := writeMarkdownEntry_appends env path (env.GetLanguage path)
    (some [{ data := head, fail := none }, fileRest f head]) false
    { w with polls := w.polls + 1 }
  exact ⟨more, by rw [hpf, hm]⟩

theorem Execute_nested_file (env : Env) (rn s n : Str) (f : FileData) (w : World)
    (hc : env.cancelAt = none)
    (h1 : ShouldIgnore env.glob env.matchers env.targetDir true = false)
    (h2 : ShouldIgnore env.glob env.matchers (Join env.targetDir s) true = false)
    (hinfo : f.infoErr = false) (hsym : f.symlink = false)
    (habs : env.Abs (Join (Join env.targetDir s) n) ≠ some env.absOutputPath)
    (h3 : ShouldIgnore env.glob env.matchers (Join (Join env.targetDir s) n) false = false) :
    (Execute env (some (Node.dir rn false [Node.dir s false [Node.file n f]])) w).2 =
      (processFile env (Join (Join env.targetDir s) n) f
        { polls := w.polls + 1 + 1 + 1, writes := w.writes, asked := w.asked }).2 := by
  simp only [Execute, walkDir, walkEntries, walkFn, Node.name, ctxErr_live env _ hc, h1, h2, h3,
    hinfo, hsym, habs, Bool.false_eq_true, if_false]
  rcases processFile env (Join (Join env.targetDir s) n) f
    { polls := w.polls + 1 + 1 + 1, writes := w.writes, asked := w.asked } with ⟨o, w2⟩
  cases o <;> rfl

theorem example_root_dot :
    walkPaths ".".toList exampleTree =
      [(".".toList, true), ("src".toList, true), ("src/a.go".toList, false)] ∧
    ShouldIgnore pathMatch [NewGitIgnoreMatcher "src/*.go".toList] "src/a.go".toList false
      = true ∧
    Execute (exampleEnvAt ".".toList ["src/*.go".toList]) (some exampleTree) World.init =
      (none, { polls := 3, writes := [], asked := [] }) := by
  refine ⟨by decide, by decide, by decide⟩

theorem example_root_proj :
    walkPaths "proj".toList exampleTree =
      [("proj".toList, true), ("proj/src".toList, true), ("proj/src/a.go".toList, false)] ∧
    ShouldIgnore pathMatch [NewGitIgnoreMatcher "src/*.go".toList] "proj/src/a.go".toList
      false = false ∧
    ∃ more, (Execute (exampleEnvAt "proj".toList ["src/*.go".toList]) (some exampleTree)
      World.init).2.writes = bytesOf "\n## File: src/a.go\n\n```\n".toList :: more := by
  refine ⟨by decide, by decide, ?_⟩
  have hE := Execute_nested_file (exampleEnvAt "proj".toList ["src/*.go".toList]) []
    "src".toList "a.go".toList (exampleFile (bytesOf "package a".toList)) World.init
    rfl (by decide) (by decide) rfl rfl (by decide) (by decide)
  obtain ⟨more, hm⟩ := processFile_emits (exampleEnvAt "proj".toList ["src/*.go".toList])
    "proj/src/a.go".toList (exampleFile (bytesOf "package a".toList))
    { polls := 3, writes := [], asked := [] } (bytesOf "package a".toList)
    rfl rfl (by decide) (by decide) (by decide)
  refine ⟨more, ?_⟩
  have hE2 : (Execute (exampleEnvAt "proj".toList ["src/*.go".toList]) (some exampleTree)
      World.init).2 = (processFile (exampleEnvAt "proj".toList ["src/*.go".toList])
      "proj/src/a.go".toList (exampleFile (bytesOf "package a".toList))
      { polls := 3, writes := [], asked := [] }).2 := hE
  have hh : bytesOf (entryHeader
      (normalizedPath (exampleEnvAt "proj".toList ["src/*.go".toList]) "proj/src/a.go".toList)
      ((exampleEnvAt "proj".toList ["src/*.go".toList]).GetLanguage "proj/src/a.go".toList)
      false) = bytesOf "\n## File: src/a.go\n\n```\n".toList := by decide
  rw [hE2, hm, hh]
  rfl

theorem walkDir_ignored_file (env : Env) (path name : Str) (f : FileData) (w : World)
    (h : ShouldIgnore env.glob env.matchers path false = true) :
    (walkDir env path (Node.file name f) w).2.writes = w.writes := by
  have hw := (ctxErr_writes env w).1
  simp only [walkDir, walkFn]
  rcases hcx : ctxErr env w with ⟨c, w1⟩
  rw [hcx] at hw
  simp only at hw
  cases c
  · simp only [h, if_true, ite_self]
    exact hw
  · exact hw

/-- C13, as stated, fails: with the rule `src/*.go` the relative path
`src/a.go` is a path the rules ignore, and under the root `.` the file is
ignored, but under the root `proj` the Ignore Engine is asked about
`proj/src/a.go`, answers false, and the file is written. -/
theorem Execute_decision_changes_with_root :
    ShouldIgnore pathMatch [NewGitIgnoreMatcher "src/*.go".toList] "src/a.go".toList false
      = true ∧
    (Execute (exampleEnvAt ".".toList ["src/*.go".toList]) (some exampleTree)
      World.init).2.writes = [] ∧
    walkPaths "proj".toList exampleTree =
      [("proj".toList, true), ("proj/src".toList, true), ("proj/src/a.go".toList, false)] ∧
    ShouldIgnore pathMatch [NewGitIgnoreMatcher "src/*.go".toList] "proj/src/a.go".toList
      false = false ∧
    ∃ more, (Execute (exampleEnvAt "proj".toList ["src/*.go".toList]) (some exampleTree)
      World.init).2.writes = bytesOf "\n## File: src/a.go\n\n```\n".toList :: more := by
  refine ⟨example_root_dot.2.1, ?_, example_root_proj.1, example_root_proj.2.1,
    example_root_proj.2.2⟩
  rw [example_root_dot.2.2]

/-- C13, amended: the traversal consults the Ignore Engine with the paths the
walk reports, the scan root joined with the relative path of the entry: the
result of `Execute` on a tree stays the same under any change of the rule set
that keeps the answers of `ShouldIgnore` on these joined paths, so it depends
on the rules through these answers only; the joined path of an entry named
`n` in the directory walked at `dir` is `Join dir n`, and a file whose joined
path the rules ignore is not written; with the rule `src/*.go`
the file `src/a.go` is ignored under the root `.`, where its joined path is
`src/a.go`, and written under the root `proj`, where it is `proj/src/a.go`. -/
theorem Execute_consults_joined_paths (env : Env) (ms : List GitIgnoreMatcher) (root : Node)
    (w : World)
    (h : ∀ pb ∈ walkPaths env.targetDir root,
      ShouldIgnore env.glob ms pb.1 pb.2 = ShouldIgnore env.glob env.matchers pb.1 pb.2) :
    Execute { env with matchers := ms } (some root) w = Execute env (some root) w ∧
    (∀ (dir name : Str) (f : FileData) (rd : Bool) (es rest : List Node),
      walkPathsEntries dir (Node.file name f :: rest) =
        (Join dir name, false) :: walkPathsEntries dir rest ∧
      walkPathsEntries dir (Node.dir name rd es :: rest) =
        (Join dir name, true) :: (walkPathsEntries (Join dir name) es ++
          walkPathsEntries dir rest)) ∧
    (∀ (path name : Str) (f : FileData) (w1 : World),
      ShouldIgnore env.glob env.matchers path false = true →
      (walkDir env path (Node.file name f) w1).2.writes = w1.writes) ∧
    (walkPaths ".".toList exampleTree =
        [(".".toList, true), ("src".toList, true), ("src/a.go".toList, false)] ∧
      (Execute (exampleEnvAt ".".toList ["src/*.go".toList]) (some exampleTree)
        World.init).2.writes = []) ∧
    (walkPaths "proj".toList exampleTree =
        [("proj".toList, true), ("proj/src".toList, true), ("proj/src/a.go".toList, false)] ∧
      ShouldIgnore pathMatch [NewGitIgnoreMatcher "src/*.go".toList] "proj/src/a.go".toList
        false = false ∧
      ∃ more, (Execute (exampleEnvAt "proj".toList ["src/*.go".toList]) (some exampleTree)
        World.init).2.writes = bytesOf "\n## File: src/a.go\n\n```\n".toList :: more) := by
  refine ⟨?_, ?_, walkDir_ignored_file env, ⟨example_root_dot.1, ?_⟩, example_root_proj⟩
  · have hw := walkDir_matchers env ms env.targetDir root w h
    have ht : ({ env with matchers := ms } : Env).targetDir = env.targetDir := rfl
    simp only [Execute, ht, hw]
  · intro dir name f rd es rest
    constructor
    · simp [walkPathsEntries, walkPaths, Node.name]
    · simp [walkPathsEntries, walkPaths, Node.name]
  · rw [example_root_dot.2.2]

/-- Under the root `proj`, replacing the rule `src/*.go` by the rule
`other/*.go`, which answers the same on `proj`, `proj/src` and
`proj/src/a.go`, leaves the result of `Execute` unchanged. -/
theorem Execute_consults_joined_paths_witness :
    (∀ pb ∈ walkPaths (exampleEnvAt "proj".toList ["src/*.go".toList]).targetDir exampleTree,
      ShouldIgnore pathMatch [NewGitIgnoreMatcher "other/*.go".toList] pb.1 pb.2 =
        ShouldIgnore pathMatch (exampleEnvAt "proj".toList ["src/*.go".toList]).matchers
          pb.1 pb.2) ∧
    Execute { exampleEnvAt "proj".toList ["src/*.go".toList] with
        matchers := [NewGitIgnoreMatcher "other/*.go".toList] } (some exampleTree)
        World.init =
      Execute (exampleEnvAt "proj".toList ["src/*.go".toList]) (some exampleTree) World.init :=
  ⟨by decide,
   (Execute_consults_joined_paths (exampleEnvAt "proj".toList ["src/*.go".toList])
      [NewGitIgnoreMatcher "other/*.go".toList] exampleTree World.init (by decide)).1⟩


end Codepack
